import Mathlib

/-!
Verification of the FastScan scanning engine against its specification.

The development shallowly embeds the C core of the repository:

* `Scanner`  — `src/native/src/scanner.c` (the generic two-byte-prefilter
  SSE2 implementation of `fs_scan_raw`);
* `Scanner2` — `src/unnamed/part_002` (the 5-byte-specialized / `memchr`
  implementation of `fs_scan_raw`);
* `Fastscan` — `src/native/src/fastscan.c` (`fastscan_init`,
  `worker_thread`, `fastscan_execute`, `fastscan_destroy`) and
  `src/native/src/mmap_reader.c` (`fs_mmap_close`).

Modelling conventions, used throughout:

* Bytes are `Nat`s; a byte buffer is a `List Nat`; `byteAt data i` is
  `data[i]` for an in-bounds `i` (out-of-bounds reads that can influence
  results are modelled explicitly with an `ext` environment, see `readB`).
* `fs_size_t` values are `Nat`s. All C-side arithmetic used by the embedded
  functions stays within `uint64`; the single expression where unsigned
  wraparound is reachable (`start_off - pattern_len + 1` in
  `fastscan_execute`) is modelled with an explicit `% 2 ^ 64`.
* Pointers into `data` are represented by their offset from `data`; pointer
  comparisons whose right-hand side can lie below `data` (for example
  `limit = start + size - pattern_len + 1` in `worker_thread`) are computed
  in `ℤ`.
* A pattern is passed as the byte list of the underlying C buffer together
  with the separate `plen` argument (`pattern_len` in C), exactly as the C
  functions receive a pointer plus a length.
* Heap allocation (`malloc`/`realloc`) is modelled as succeeding; thread
  spawn outcomes are an explicit oracle parameter (`spawnOk`), since
  `fastscan_execute` ignores the result of `pthread_create`.
-/

/-- Status codes of `fs_status_t` (src/unnamed/part_000, `safe_types.h`). -/
inductive FsStatus where
  | success
  | nullPtr
  | invalidArg
  | outOfBounds
  | mmapFailed
  | openFailed
deriving DecidableEq, Repr

/-- Byte `data[i]`; all uses whose value can reach an observable result are
at in-bounds indices unless stated otherwise. -/
def byteAt (data : List Nat) (i : Nat) : Nat := data.getD i 0

/-- A byte read that the C code may perform beyond `data + data_len`: for an
in-bounds index it is `data[i]`, otherwise the unknown content `ext i` of
the memory after the buffer. -/
def readB (data : List Nat) (ext : Nat → Nat) (i : Nat) : Nat :=
  if i < data.length then byteAt data i else ext i

/-- Result of full pattern verification at position `i`: the `plen` bytes
`data[i..i+plen)` equal `pattern[0..plen)`. This is the value computed by
`verify_sse2` (scanner.c:13-28) and `verify_simd` (fastscan.c:39-49) — both
mask their 16-byte compare down to the low `plen` bits, so the result
depends only on these bytes — and by `memcmp` for `plen > 16`. The callers
below only invoke it at `i < data_len - plen + 1`, where every byte the
result depends on is in bounds. -/
def verifyBytes (data pat : List Nat) (plen i : Nat) : Bool :=
  (List.range plen).all fun j => byteAt data (i + j) == byteAt pat j

/-- The naive linear-scan match set of §8 of the spec: every offset
`i ∈ [0, data_len − pattern_len]` with `data[i..i+plen) == pattern`, in
ascending order. -/
def naiveMatches (data pat : List Nat) (plen : Nat) : List Nat :=
  if data.length < plen then []
  else (List.range (data.length - plen + 1)).filter fun i => verifyBytes data pat plen i

/-- The naive matches whose offset lies in `[a, b)`. -/
def matchesIn (data pat : List Nat) (plen a b : Nat) : List Nat :=
  (List.range' a (b - a)).filter fun i => verifyBytes data pat plen i

namespace Scanner

/-!
Model of `fs_scan_raw` of `src/native/src/scanner.c` (lines 30-118): the
generic SSE2 implementation with the two-byte prefilter.

The SSE2 main loop is embedded at mask level: at block start `s` the code
compares the 16 bytes `data[s..s+16)` against `pattern[0]` (and, when
`pattern_len > 1`, `data[s+1..s+17)` against `pattern[1]`) and iterates the
set bits of the resulting mask in ascending order via count-trailing-zeros;
this is the list of positions `c ∈ [s, s+16)` passing `prefilterBit`, in
ascending order. All prefilter reads are in bounds because the loop runs
only while `start < sse_limit = end - 16`.
-/

/-- Bit `c - s` of the (combined) movemask for the block at `s`:
`data[c] == pattern[0]`, and `data[c+1] == pattern[1]` when
`pattern_len > 1`. -/
def prefilterBit (data pat : List Nat) (plen c : Nat) : Bool :=
  byteAt data c == byteAt pat 0 && (plen ≤ 1 || byteAt data (c + 1) == byteAt pat 1)

/-- Inner `while (mask != 0)` loop (scanner.c:69-92): `cands` are the mask's
set positions in ascending order; `lim` is the index form of `limit`.
Returns the updated match list and whether the cap-reached
`return FS_SUCCESS` (scanner.c:86) was taken. -/
def scanCands (data pat : List Nat) (plen cap lim : Nat) :
    List Nat → List Nat → List Nat × Bool
  | [], acc => (acc, false)
  | c :: cs, acc =>
    if c < lim then
      if verifyBytes data pat plen c then
        if acc.length < cap then scanCands data pat plen cap lim cs (acc ++ [c])
        else (acc, true)
      else scanCands data pat plen cap lim cs acc
    else scanCands data pat plen cap lim cs acc

/-- Main SSE2 loop (scanner.c:54-95): processes 16-byte blocks while
`start < sse_limit`, i.e. `s + 16 < data_len`. Returns the match list, the
resume position for the tail loop, and whether the early `return` was
taken. -/
def scanMain (data pat : List Nat) (plen cap lim : Nat) (s : Nat) (acc : List Nat) :
    List Nat × Nat × Bool :=
  if h : s + 16 < data.length then
    let step := scanCands data pat plen cap lim
      (((List.range 16).map (s + ·)).filter (prefilterBit data pat plen)) acc
    if step.2 then (step.1, s, true)
    else scanMain data pat plen cap lim (s + 16) step.1
  else (acc, s, false)
termination_by data.length - s

/-- Scalar tail loop (scanner.c:98-115). On a verified match at full cap the
code `break`s out of the loop. -/
def scanTail (data pat : List Nat) (plen cap lim : Nat) (s : Nat) (acc : List Nat) :
    List Nat :=
  if _h : s < lim then
    if byteAt data s == byteAt pat 0 && (plen == 1 || byteAt data (s + 1) == byteAt pat 1) then
      if verifyBytes data pat plen s then
        if acc.length < cap then scanTail data pat plen cap lim (s + 1) (acc ++ [s])
        else acc
      else scanTail data pat plen cap lim (s + 1) acc
    else scanTail data pat plen cap lim (s + 1) acc
  else acc
termination_by lim - s

/-- `fs_scan_raw` (scanner.c:30-118). `data_len` is `data.length`, the match
buffer is returned as a list (writes into `out_matches` in ascending slot
order), `max_matches` is `cap`. -/
def fs_scan_raw (data pat : List Nat) (plen cap : Nat) : FsStatus × List Nat :=
  if cap = 0 then (.success, [])
  else if data.length < plen then (.success, [])
  else
    let lim := data.length - plen + 1
    let m := scanMain data pat plen cap lim 0 []
    if m.2.2 then (.success, m.1)
    else (.success, scanTail data pat plen cap lim m.2.1 m.1)

end Scanner

/-! ### Generic facts about `verifyBytes`, `matchesIn` and truncation -/

theorem verifyBytes_byte_zero {data pat : List Nat} {plen c : Nat} (hp : 1 ≤ plen)
    (h : verifyBytes data pat plen c = true) : byteAt data c = byteAt pat 0 := by
  have h0 := (List.all_eq_true.mp h) 0 (List.mem_range.mpr hp)
  simpa using h0

theorem verifyBytes_byte_one {data pat : List Nat} {plen c : Nat} (hp : 2 ≤ plen)
    (h : verifyBytes data pat plen c = true) : byteAt data (c + 1) = byteAt pat 1 := by
  have h1 := (List.all_eq_true.mp h) 1 (List.mem_range.mpr hp)
  simpa using h1

/-- The candidate predicate of the generic scanner: in range and verified. -/
def goodAt (data pat : List Nat) (plen lim c : Nat) : Bool :=
  decide (c < lim) && verifyBytes data pat plen c

theorem matchesIn_stop {data pat : List Nat} {plen a b : Nat} (h : b ≤ a) :
    matchesIn data pat plen a b = [] := by
  unfold matchesIn
  rw [Nat.sub_eq_zero_of_le h]
  rfl

/-- Splitting the naive matches of `[s, lim)` at `s + k`: the first block is
the in-range verified positions among `[s, s + k)`. -/
theorem matchesIn_split (data pat : List Nat) (plen lim s k : Nat) :
    matchesIn data pat plen s lim =
      (List.range' s k).filter (goodAt data pat plen lim) ++
        matchesIn data pat plen (s + k) lim := by
  rcases Nat.le_total lim s with h1 | h1
  · have hnil : (List.range' s k).filter (goodAt data pat plen lim) = [] := by
      apply List.filter_eq_nil_iff.mpr
      intro c hc
      have := (List.mem_range'_1.mp hc).1
      simp only [goodAt, Bool.and_eq_true, decide_eq_true_eq, not_and]
      omega
    rw [matchesIn_stop h1, matchesIn_stop (by omega), hnil]
    rfl
  · rcases Nat.le_total lim (s + k) with h2 | h2
    · have hk : k = (lim - s) + (k - (lim - s)) := by omega
      have hsplit : List.range' s k =
          List.range' s (lim - s) ++ List.range' (s + (lim - s)) (k - (lim - s)) := by
        rw [List.range'_append_1]
        rw [Nat.add_comm (k - (lim - s)) (lim - s), ← hk]
      have hnil2 : (List.range' (s + (lim - s)) (k - (lim - s))).filter
          (goodAt data pat plen lim) = [] := by
        apply List.filter_eq_nil_iff.mpr
        intro c hc
        have := (List.mem_range'_1.mp hc).1
        simp only [goodAt, Bool.and_eq_true, decide_eq_true_eq, not_and]
        omega
      rw [matchesIn_stop (by omega : lim ≤ s + k), hsplit, List.filter_append, hnil2,
        List.append_nil, List.append_nil]
      unfold matchesIn
      apply List.filter_congr
      intro c hc
      have hcb := List.mem_range'_1.mp hc
      simp only [goodAt]
      rw [decide_eq_true (by omega : c < lim), Bool.true_and]
    · have hsplit : List.range' s (lim - s) =
          List.range' s k ++ List.range' (s + k) (lim - s - k) := by
        rw [List.range'_append_1]
        congr 1
        omega
      unfold matchesIn
      rw [hsplit, List.filter_append]
      congr 1
      · apply List.filter_congr
        intro c hc
        have hcb := List.mem_range'_1.mp hc
        simp only [goodAt]
        rw [decide_eq_true (by omega : c < lim), Bool.true_and]
      · rw [Nat.sub_sub]

theorem naiveMatches_eq_matchesIn (data pat : List Nat) (plen : Nat)
    (h : plen ≤ data.length) :
    naiveMatches data pat plen = matchesIn data pat plen 0 (data.length - plen + 1) := by
  unfold naiveMatches matchesIn
  rw [if_neg (by omega)]
  rw [List.range_eq_range']
  rfl

/-- Taking `n` elements from segments each already truncated at `cap ≥ n`
equals taking `n` from the untruncated concatenation. -/
theorem take_flatten_take (cap : Nat) :
    ∀ (segs : List (List Nat)) (n : Nat), n ≤ cap →
      (segs.map (fun s => s.take cap)).flatten.take n = segs.flatten.take n := by
  intro segs
  induction segs with
  | nil =>
    intro n _
    rfl
  | cons s ss ih =>
    intro n hn
    simp only [List.map_cons, List.flatten_cons]
    rw [List.take_append_eq_append_take, List.take_append_eq_append_take]
    rw [List.take_take]
    rw [min_eq_left hn]
    congr 1
    rcases Nat.le_total s.length cap with h1 | h1
    · rw [List.take_of_length_le h1]
      exact ih _ (by omega)
    · have h2 : (s.take cap).length = cap := by
        rw [List.length_take]
        omega
      rw [h2]
      have h3 : n - cap = 0 := by omega
      have h4 : n - s.length = 0 := by omega
      rw [h3, h4]
      simp


namespace Scanner

/-- The `while (mask != 0)` loop processes the mask's candidates left to
right, appending each in-range verified candidate while the buffer has room
and returning early at the cap. -/
theorem scanCands_eq (data pat : List Nat) (plen cap lim : Nat) :
    ∀ (cs acc : List Nat),
      scanCands data pat plen cap lim cs acc =
        (acc ++ (cs.filter (goodAt data pat plen lim)).take (cap - acc.length),
          decide (cap - acc.length < (cs.filter (goodAt data pat plen lim)).length)) := by
  intro cs
  induction cs with
  | nil =>
    intro acc
    simp [scanCands]
  | cons c cs ih =>
    intro acc
    by_cases h1 : c < lim
    · by_cases h2 : verifyBytes data pat plen c = true
      · have hg : (c :: cs).filter (goodAt data pat plen lim) =
            c :: cs.filter (goodAt data pat plen lim) := by
          simp [goodAt, h1, h2]
        by_cases h3 : acc.length < cap
        · have hlen : (acc ++ [c]).length = acc.length + 1 := by simp
          have hr : cap - acc.length = (cap - (acc.length + 1)) + 1 := by omega
          rw [scanCands, if_pos h1, if_pos h2, if_pos h3, ih, hg, hlen, hr,
            List.take_succ_cons]
          rw [Prod.mk.injEq]
          refine ⟨?_, ?_⟩
          · rw [List.append_assoc, List.singleton_append]
          · rw [decide_eq_decide]
            simp only [List.length_cons]
            omega
        · have hr : cap - acc.length = 0 := by omega
          rw [scanCands, if_pos h1, if_pos h2, if_neg h3, hg, hr, List.take_zero,
            List.append_nil]
          rw [Prod.mk.injEq]
          refine ⟨rfl, ?_⟩
          simp
      · have hg : (c :: cs).filter (goodAt data pat plen lim) =
            cs.filter (goodAt data pat plen lim) := by
          simp [goodAt, h2]
        rw [scanCands, if_pos h1, if_neg h2, ih, hg]
    · have hg : (c :: cs).filter (goodAt data pat plen lim) =
          cs.filter (goodAt data pat plen lim) := by
        simp [goodAt, h1]
      rw [scanCands, if_neg h1, ih, hg]

/-- A verified position passes the two-byte prefilter, so prefiltering the
candidate list loses no match. -/
theorem filter_prefilter_absorb (data pat : List Nat) (plen lim : Nat) (hp : 1 ≤ plen)
    (l : List Nat) :
    (l.filter (prefilterBit data pat plen)).filter (goodAt data pat plen lim)
      = l.filter (goodAt data pat plen lim) := by
  rw [List.filter_filter]
  apply List.filter_congr
  intro c _
  by_cases hv : goodAt data pat plen lim c = true
  · have hverify : verifyBytes data pat plen c = true := by
      have h := hv
      simp only [goodAt, Bool.and_eq_true] at h
      exact h.2
    have h2 : prefilterBit data pat plen c = true := by
      unfold prefilterBit
      rw [verifyBytes_byte_zero hp hverify]
      simp only [beq_self_eq_true, Bool.true_and]
      rcases Nat.lt_or_ge plen 2 with h | h
      · have h1 : plen ≤ 1 := by omega
        simp [h1]
      · rw [verifyBytes_byte_one h hverify]
        simp
    rw [hv, h2]
    rfl
  · rw [Bool.eq_false_iff.mpr hv]
    simp

/-- The scalar tail loop from `s` extends `acc` with the verified positions
of `[s, lim)`, truncated at the cap. -/
theorem scanTail_eq (data pat : List Nat) (plen cap lim : Nat) (hp : 1 ≤ plen) :
    ∀ (n s : Nat) (acc : List Nat), lim - s ≤ n →
      scanTail data pat plen cap lim s acc =
        acc ++ (matchesIn data pat plen s lim).take (cap - acc.length) := by
  intro n
  induction n with
  | zero =>
    intro s acc h
    rw [scanTail, dif_neg (by omega : ¬ s < lim), matchesIn_stop (by omega)]
    simp
  | succ n ih =>
    intro s acc hn
    by_cases hs : s < lim
    · have hsplit : matchesIn data pat plen s lim =
          (List.range' s 1).filter (goodAt data pat plen lim) ++
            matchesIn data pat plen (s + 1) lim :=
        matchesIn_split data pat plen lim s 1
    -- the single position `s` either is or is not a verified match
      by_cases hv : verifyBytes data pat plen s = true
      · have hone : (List.range' s 1).filter (goodAt data pat plen lim) = [s] := by
          simp [goodAt, hs, hv]
        have hsp : (byteAt data s == byteAt pat 0 &&
            (plen == 1 || byteAt data (s + 1) == byteAt pat 1)) = true := by
          rw [verifyBytes_byte_zero hp hv]
          simp only [beq_self_eq_true, Bool.true_and]
          rcases Nat.lt_or_ge plen 2 with h | h
          · have h1 : plen = 1 := by omega
            simp [h1]
          · rw [verifyBytes_byte_one h hv]
            simp
        by_cases h3 : acc.length < cap
        · have hlen : (acc ++ [s]).length = acc.length + 1 := by simp
          have hr : cap - acc.length = (cap - (acc.length + 1)) + 1 := by omega
          rw [scanTail, dif_pos hs, if_pos hsp, if_pos hv, if_pos h3]
          rw [ih (s + 1) (acc ++ [s]) (by omega), hlen]
          rw [hsplit, hone, List.singleton_append, hr, List.take_succ_cons,
            List.append_assoc, List.singleton_append]
        · have hr : cap - acc.length = 0 := by omega
          rw [scanTail, dif_pos hs, if_pos hsp, if_pos hv, if_neg h3]
          rw [hsplit, hone, hr, List.take_zero, List.append_nil]
      · have hnone : (List.range' s 1).filter (goodAt data pat plen lim) = [] := by
          simp [goodAt, hv]
        have hrec : scanTail data pat plen cap lim s acc =
            scanTail data pat plen cap lim (s + 1) acc := by
          rw [scanTail, dif_pos hs]
          by_cases hsp : (byteAt data s == byteAt pat 0 &&
              (plen == 1 || byteAt data (s + 1) == byteAt pat 1)) = true
          · rw [if_pos hsp, if_neg hv]
          · rw [if_neg hsp]
        rw [hrec, ih (s + 1) acc (by omega), hsplit, hnone, List.nil_append]
    · rw [scanTail, dif_neg hs, matchesIn_stop (by omega)]
      simp

/-- One unfolding of the SSE2 main loop in the looping case. -/
theorem scanMain_step (data pat : List Nat) (plen cap lim s : Nat) (acc : List Nat)
    (h : s + 16 < data.length) :
    scanMain data pat plen cap lim s acc =
      (if (scanCands data pat plen cap lim
            (((List.range 16).map (s + ·)).filter (prefilterBit data pat plen)) acc).2
        then ((scanCands data pat plen cap lim
            (((List.range 16).map (s + ·)).filter (prefilterBit data pat plen)) acc).1, s, true)
        else scanMain data pat plen cap lim (s + 16)
          (scanCands data pat plen cap lim
            (((List.range 16).map (s + ·)).filter (prefilterBit data pat plen)) acc).1) := by
  rw [scanMain]
  rw [dif_pos h]

/-- The SSE2 main loop followed by the scalar tail extends `acc` with the
verified positions of `[s, lim)`, truncated at the cap. -/
theorem scanMain_tail_eq (data pat : List Nat) (plen cap lim : Nat) (hp : 1 ≤ plen) :
    ∀ (n s : Nat) (acc : List Nat), data.length - s ≤ n →
      (if (scanMain data pat plen cap lim s acc).2.2
        then (scanMain data pat plen cap lim s acc).1
        else scanTail data pat plen cap lim (scanMain data pat plen cap lim s acc).2.1
          (scanMain data pat plen cap lim s acc).1) =
        acc ++ (matchesIn data pat plen s lim).take (cap - acc.length) := by
  intro n
  induction n with
  | zero =>
    intro s acc hn
    rw [scanMain, dif_neg (by omega : ¬ s + 16 < data.length)]
    exact scanTail_eq data pat plen cap lim hp lim s acc (by omega)
  | succ n ih =>
    intro s acc hn
    by_cases h16 : s + 16 < data.length
    · have habs : ((((List.range 16).map (s + ·)).filter (prefilterBit data pat plen)).filter
          (goodAt data pat plen lim)) = (List.range' s 16).filter (goodAt data pat plen lim) := by
        rw [← List.range'_eq_map_range]
        exact filter_prefilter_absorb data pat plen lim hp _
      have hcands := scanCands_eq data pat plen cap lim
        (((List.range 16).map (s + ·)).filter (prefilterBit data pat plen)) acc
      rw [habs] at hcands
      have hsplit := matchesIn_split data pat plen lim s 16
      by_cases hstop : cap - acc.length <
          ((List.range' s 16).filter (goodAt data pat plen lim)).length
      · have h1 : scanMain data pat plen cap lim s acc =
            (acc ++ ((List.range' s 16).filter (goodAt data pat plen lim)).take
              (cap - acc.length), s, true) := by
          rw [scanMain_step data pat plen cap lim s acc h16, hcands]
          simp [hstop]
        rw [h1]
        show acc ++ ((List.range' s 16).filter (goodAt data pat plen lim)).take
            (cap - acc.length) =
          acc ++ (matchesIn data pat plen s lim).take (cap - acc.length)
        have hz : cap - acc.length -
            ((List.range' s 16).filter (goodAt data pat plen lim)).length = 0 := by
          omega
        rw [hsplit, List.take_append_eq_append_take, hz, List.take_zero,
          List.append_nil]
      · have htake : ((List.range' s 16).filter (goodAt data pat plen lim)).take
            (cap - acc.length) = (List.range' s 16).filter (goodAt data pat plen lim) :=
          List.take_of_length_le (by omega)
        have h1 : scanMain data pat plen cap lim s acc =
            scanMain data pat plen cap lim (s + 16)
              (acc ++ (List.range' s 16).filter (goodAt data pat plen lim)) := by
          rw [scanMain_step data pat plen cap lim s acc h16, hcands]
          simp [hstop, htake]
        rw [h1]
        rw [ih (s + 16) (acc ++ (List.range' s 16).filter (goodAt data pat plen lim))
          (by omega)]
        rw [hsplit, List.take_append_eq_append_take, htake, ← List.append_assoc]
        have hlen : cap - (acc ++ (List.range' s 16).filter
            (goodAt data pat plen lim)).length =
            cap - acc.length - ((List.range' s 16).filter (goodAt data pat plen lim)).length := by
          simp only [List.length_append]
          omega
        rw [hlen]
    · rw [scanMain, dif_neg h16]
      exact scanTail_eq data pat plen cap lim hp lim s acc (by omega)

/-- `fs_scan_raw` of scanner.c returns `Success` and exactly the first
`cap` naive matches, for every non-empty pattern. -/
theorem fs_scan_raw_eq_naive (data pat : List Nat) (plen cap : Nat) (hp : 1 ≤ plen) :
    fs_scan_raw data pat plen cap =
      (.success, (naiveMatches data pat plen).take cap) := by
  unfold fs_scan_raw
  by_cases hcap : cap = 0
  · rw [if_pos hcap, hcap, List.take_zero]
  · rw [if_neg hcap]
    by_cases hlen : data.length < plen
    · rw [if_pos hlen]
      unfold naiveMatches
      rw [if_pos hlen]
      simp
    · rw [if_neg hlen]
      show (if (scanMain data pat plen cap (data.length - plen + 1) 0 []).2.2
          then ((FsStatus.success : FsStatus),
            (scanMain data pat plen cap (data.length - plen + 1) 0 []).1)
          else (FsStatus.success, scanTail data pat plen cap (data.length - plen + 1)
            (scanMain data pat plen cap (data.length - plen + 1) 0 []).2.1
            (scanMain data pat plen cap (data.length - plen + 1) 0 []).1)) =
        (FsStatus.success, (naiveMatches data pat plen).take cap)
      have h := scanMain_tail_eq data pat plen cap (data.length - plen + 1) hp
        data.length 0 [] (by omega)
      simp only [List.nil_append, List.length_nil, Nat.sub_zero] at h
      rw [naiveMatches_eq_matchesIn data pat plen (by omega)]
      by_cases hstop : (scanMain data pat plen cap (data.length - plen + 1) 0 []).2.2
      · rw [if_pos hstop]
        rw [if_pos hstop] at h
        rw [h]
      · rw [if_neg hstop]
        rw [if_neg hstop] at h
        rw [h]

end Scanner

namespace Scanner2

/-!
Model of `fs_scan_raw` of `src/unnamed/part_002`: the 5-byte-specialized
SSE2 path plus the `memchr`-based generic path.

Additional parameters relative to the `Scanner` model:

* `ext : Nat → Nat` — the unknown bytes of memory at and beyond
  `data + data_len`. This implementation reads past the end of the buffer
  (the 5-byte SIMD candidate check for mask bits at offsets `≥ limit`
  checks `start[offset+1..offset+4]` with no bound, and the generic path
  admits `found == limit`, whose `memcmp` reads `data[data_len]`), and
  those reads influence the emitted matches, so they appear explicitly
  through `readB`.
* `al : Nat` — the address of `data` modulo 16, used by the alignment
  prologue `(uintptr_t)start % 16 != 0`: position `s` has address
  `al + s (mod 16)`. Callers inside the repository always pass the
  page-aligned base of the mmapped region, i.e. `al = 0`.
-/

/-- `memcmp` over `[i, i+plen)` where trailing bytes may lie past the
buffer. -/
def memcmpB (data : List Nat) (ext : Nat → Nat) (pat : List Nat) (plen i : Nat) : Bool :=
  (List.range plen).all fun j => readB data ext (i + j) == byteAt pat j

/-- `memchr(start, b0, end - start)` (part_002:82): the first position in
`[start, data_len)` holding byte `b0`. Reads only in-bounds bytes. -/
def memchrIdx (data : List Nat) (b0 start : Nat) : Option Nat :=
  (List.range' start (data.length - start)).find? fun i => byteAt data i == b0

theorem memchrIdx_bounds {data : List Nat} {b0 start found : Nat}
    (h : memchrIdx data b0 start = some found) :
    start ≤ found ∧ found < data.length := by
  have hm := List.mem_of_find?_eq_some h
  have hb := List.mem_range'_1.mp hm
  omega

/-- The generic loop of part_002 (lines 80-90): repeated `memchr` for the
first pattern byte, then full `memcmp` verification. The bound check is
`found > limit`: a `found` equal to `limit` is admitted, so a match can be
emitted at offset `data_len - plen + 1` when the byte at `data[data_len]`
(i.e. `ext data_len`) completes the pattern. -/
def memchrLoop (data pat : List Nat) (ext : Nat → Nat) (plen cap lim : Nat)
    (start : Nat) (acc : List Nat) : List Nat :=
  if _h1 : start < lim then
    match h2 : memchrIdx data (byteAt pat 0) start with
    | none => acc
    | some found =>
      if found > lim then acc
      else if memcmpB data ext pat plen found then
        if (acc ++ [found]).length ≥ cap then acc ++ [found]
        else memchrLoop data pat ext plen cap lim (found + 1) (acc ++ [found])
      else memchrLoop data pat ext plen cap lim (found + 1) acc
  else acc
termination_by lim - start
decreasing_by
  · have := memchrIdx_bounds h2
    omega
  · have := memchrIdx_bounds h2
    omega

/-- Alignment prologue of the 5-byte path (part_002:46-52): scalar scan with
direct byte comparisons until the cursor address `al + s` is 16-aligned.
Returns (resume position, matches, early-return?). -/
def fiveProlog (data pat : List Nat) (al cap lim : Nat) (s : Nat) (acc : List Nat) :
    Nat × List Nat × Bool :=
  if h : s < lim ∧ (al + s) % 16 ≠ 0 then
    if byteAt data s == byteAt pat 0 && byteAt data (s + 1) == byteAt pat 1 &&
        byteAt data (s + 2) == byteAt pat 2 && byteAt data (s + 3) == byteAt pat 3 &&
        byteAt data (s + 4) == byteAt pat 4 then
      if (acc ++ [s]).length ≥ cap then (s, acc ++ [s], true)
      else fiveProlog data pat al cap lim (s + 1) (acc ++ [s])
    else fiveProlog data pat al cap lim (s + 1) acc
  else (s, acc, false)
termination_by lim - s
decreasing_by
  · omega
  · omega

/-- 5-byte SIMD candidate processing (part_002:63-72): for each set mask bit
(ascending), check bytes 1-4 directly — with no bound against `limit`, so
trailing candidates read past the buffer via `readB`. -/
def fiveCands (data pat : List Nat) (ext : Nat → Nat) (cap : Nat) :
    List Nat → List Nat → List Nat × Bool
  | [], acc => (acc, false)
  | c :: cs, acc =>
    if readB data ext (c + 1) == byteAt pat 1 && readB data ext (c + 2) == byteAt pat 2 &&
        readB data ext (c + 3) == byteAt pat 3 && readB data ext (c + 4) == byteAt pat 4 then
      if (acc ++ [c]).length ≥ cap then (acc ++ [c], true)
      else fiveCands data pat ext cap cs (acc ++ [c])
    else fiveCands data pat ext cap cs acc

/-- 5-byte SIMD main loop (part_002:56-75): while `start < simd_limit`
(`s + 16 < data_len`); the first-byte mask of the 16-byte block at `s`
(these loads are in bounds). -/
def fiveSimd (data pat : List Nat) (ext : Nat → Nat) (cap : Nat) (s : Nat)
    (acc : List Nat) : Nat × List Nat × Bool :=
  if h : s + 16 < data.length then
    let step := fiveCands data pat ext cap
      (((List.range 16).map (s + ·)).filter fun c => byteAt data c == byteAt pat 0) acc
    if step.2 then (s, step.1, true)
    else fiveSimd data pat ext cap (s + 16) step.1
  else (s, acc, false)
termination_by data.length - s

/-- `check_remainder` (part_002:12-21): scalar tail of the 5-byte path;
its in-bounds `memcmp` result is `verifyBytes`; writes, then checks the
cap. -/
def check_remainder (data pat : List Nat) (plen cap lim : Nat) (p : Nat)
    (acc : List Nat) : List Nat :=
  if h : p < lim then
    if byteAt data p == byteAt pat 0 && verifyBytes data pat plen p then
      if (acc ++ [p]).length ≥ cap then acc ++ [p]
      else check_remainder data pat plen cap lim (p + 1) (acc ++ [p])
    else check_remainder data pat plen cap lim (p + 1) acc
  else acc
termination_by lim - p

/-- `fs_scan_raw` of part_002 (lines 23-94). -/
def fs_scan_raw (data pat : List Nat) (plen cap : Nat) (al : Nat) (ext : Nat → Nat) :
    FsStatus × List Nat :=
  if cap = 0 then (.success, [])
  else if data.length < plen then (.success, [])
  else if plen = 5 then
    let lim := data.length - plen + 1
    let p1 := fiveProlog data pat al cap lim 0 []
    if p1.2.2 then (.success, p1.2.1)
    else
      let p2 := fiveSimd data pat ext cap p1.1 p1.2.1
      if p2.2.2 then (.success, p2.2.1)
      else (.success, check_remainder data pat plen cap lim p2.1 p2.2.1)
  else (.success, memchrLoop data pat ext plen cap (data.length - plen + 1) 0 [])

end Scanner2

namespace Fastscan

/-- `fs_region_t` (fastscan.h): `data` is `none` for a NULL base; the
mapped bytes are carried in the model so the scan can read them;
`size` and `fd` as in C. -/
structure FsRegion where
  data : Option (List Nat)
  size : Nat
  fd : Int
deriving DecidableEq, Repr

/-- `fastscan_ctx_t` (fastscan.h). `pattern` holds the bytes of the buffer
`ctx->pattern` points to (a NUL-terminated C string, excluding the
terminator only if the caller chose so — embedded NUL bytes stay in the
list). `matchesBuf` is the C field `matches` (`matches` is reserved in
Lean), `none` for a NULL pointer. `matchCount` is kept separately from the
buffer as in C. -/
structure FastscanCtx where
  pattern : List Nat
  patternLen : Nat
  region : FsRegion
  matchesBuf : Option (List Nat)
  matchCount : Nat
  maxMatches : Nat
  isInitialized : Bool
deriving DecidableEq, Repr

/-- C `strlen`: number of bytes before the first NUL. -/
def cstrlen (p : List Nat) : Nat := (p.takeWhile fun b => b != 0).length

/-- `fastscan_init` (fastscan.c:118-129), for non-NULL `ctx` and `pattern`
(NULL arguments return `NullArg` before this point and change nothing).
The context is zeroed (`memset`), then the pattern pointer, its `strlen`
and the cap are stored unvalidated and `is_initialized` is set. -/
def fastscan_init (pat : List Nat) (maxResults : Nat) : FsStatus × FastscanCtx :=
  (.success,
    { pattern := pat
      patternLen := cstrlen pat
      region := { data := none, size := 0, fd := 0 }
      matchesBuf := none
      matchCount := 0
      maxMatches := maxResults
      isInitialized := true })

/-- `fs_mmap_close` (mmap_reader.c:159-178). Besides the new region state,
reports whether this call performed `munmap` and `close`. -/
def fs_mmap_close (r : FsRegion) : FsRegion × Bool × Bool :=
  let didUnmap := r.data.isSome && decide (r.size > 0)
  let d1 := if didUnmap then none else r.data
  let didClose := decide (r.fd ≠ -1)
  ({ data := d1, size := 0, fd := if didClose then -1 else r.fd }, didUnmap, didClose)

/-- `fastscan_destroy` (fastscan.c:209-221). Reports which resources this
call released: (munmap?, close?, free-of-matches?). -/
def fastscan_destroy (ctx : FastscanCtx) : FastscanCtx × Bool × Bool × Bool :=
  let c := fs_mmap_close ctx.region
  let didFree := ctx.matchesBuf.isSome
  ({ ctx with
      region := c.1
      matchesBuf := none
      matchCount := 0
      isInitialized := false },
    c.2.1, c.2.2, didFree)

/-- `fs_scan_run` (scanner.c:120-139): the only entry point that rejects an
empty pattern (`FS_ERROR_INVALID_ARG`); `fastscan_execute` does not call
it. -/
def fs_scan_run (ctx : FastscanCtx) : FsStatus × List Nat :=
  match ctx.region.data with
  | none => (.nullPtr, [])
  | some data =>
    if ctx.patternLen = 0 then (.invalidArg, [])
    else if data.length < ctx.patternLen then (.success, [])
    else Scanner.fs_scan_raw data ctx.pattern ctx.patternLen ctx.maxMatches

/-- `grow_buffer` (fastscan.c:27-37), with `realloc` modelled as
succeeding: returns the new capacity, or `none` when the worker is at
`max_collect`. -/
def grow_buffer (count capacity maxCollect : Nat) : Option Nat :=
  if count ≥ maxCollect then none
  else
    let newCap := if capacity = 0 then 4096 else capacity * 2
    some (if newCap > maxCollect then maxCollect else newCap)

/-- One `td->matches[td->count++] = off`, guarded by the capacity check
`if (td->count >= td->capacity) { if (grow_buffer(td)) goto cleanup; }`:
`none` means `goto cleanup`. The worker state is (matches, capacity);
`count` is `matches.length`. -/
def workerRecord (maxCollect : Nat) (st : List Nat × Nat) (off : Nat) :
    Option (List Nat × Nat) :=
  if st.1.length ≥ st.2 then
    match grow_buffer st.1.length st.2 maxCollect with
    | none => none
    | some c => some (st.1 ++ [off], c)
  else some (st.1 ++ [off], st.2)

/-- PHASE 1 of `worker_thread` (fastscan.c:63-74): the overlap region
`[readStart, overlap_end = tcs)`. A hit is recorded only when its absolute
offset is `≥ true_chunk_start = tcs` — which contradicts the loop bound
`p < tcs`, so this phase records nothing (proved below). All positions are
absolute offsets into `data` (= `global_start`); `limit` is the pointer
`start + size - pattern_len + 1` as an integer offset. Returns
(resume position, state, cleanup?). -/
def workerPhase1 (data pat : List Nat) (plen : Nat) (limit : Int) (tcs maxCollect : Nat)
    (p : Nat) (st : List Nat × Nat) : Nat × (List Nat × Nat) × Bool :=
  if h : (p : Int) < limit ∧ p < tcs then
    if byteAt data p == byteAt pat 0 then
      if verifyBytes data pat plen p then
        if p ≥ tcs then
          match workerRecord maxCollect st p with
          | none => (p, st, true)
          | some st2 => workerPhase1 data pat plen limit tcs maxCollect (p + 1) st2
        else workerPhase1 data pat plen limit tcs maxCollect (p + 1) st
      else workerPhase1 data pat plen limit tcs maxCollect (p + 1) st
    else workerPhase1 data pat plen limit tcs maxCollect (p + 1) st
  else (p, st, false)
termination_by tcs - p

/-- PHASE 2 (fastscan.c:77-83): scalar scan until the cursor address
(`al + p`, where `al` is the mmap base address mod 16 — 0 in the
repository, mmap being page-aligned) is 16-aligned. -/
def workerPhase2 (data pat : List Nat) (plen : Nat) (limit : Int) (al maxCollect : Nat)
    (p : Nat) (st : List Nat × Nat) : Nat × (List Nat × Nat) × Bool :=
  if h : (al + p) % 16 ≠ 0 ∧ (p : Int) < limit then
    if byteAt data p == byteAt pat 0 && verifyBytes data pat plen p then
      match workerRecord maxCollect st p with
      | none => (p, st, true)
      | some st2 => workerPhase2 data pat plen limit al maxCollect (p + 1) st2
    else workerPhase2 data pat plen limit al maxCollect (p + 1) st
  else (p, st, false)
termination_by limit.toNat - p
decreasing_by
  all_goals omega

/-- Inner mask loop of PHASE 3 (fastscan.c:90-99): candidates are the
16-byte-block positions whose byte equals `pattern[0]`, ascending. -/
def workerCands (data pat : List Nat) (plen maxCollect : Nat) :
    List Nat → (List Nat × Nat) → (List Nat × Nat) × Bool
  | [], st => (st, false)
  | c :: cs, st =>
    if verifyBytes data pat plen c then
      match workerRecord maxCollect st c with
      | none => (st, true)
      | some st2 => workerCands data pat plen maxCollect cs st2
    else workerCands data pat plen maxCollect cs st

/-- PHASE 3 (fastscan.c:85-104): aligned 16-byte blocks while
`p < simd_limit = limit - 16`; after each block the worker stops once
`count >= max_collect`. -/
def workerPhase3 (data pat : List Nat) (plen : Nat) (limit : Int) (maxCollect : Nat)
    (p : Nat) (st : List Nat × Nat) : Nat × (List Nat × Nat) × Bool :=
  if h : (p : Int) < limit - 16 then
    let step := workerCands data pat plen maxCollect
      (((List.range 16).map (p + ·)).filter fun c => byteAt data c == byteAt pat 0) st
    if step.2 then (p, step.1, true)
    else if step.1.1.length ≥ maxCollect then (p + 16, step.1, true)
    else workerPhase3 data pat plen limit maxCollect (p + 16) step.1
  else (p, st, false)
termination_by limit.toNat - p
decreasing_by
  omega

/-- PHASE 4 (fastscan.c:106-112): scalar tail to `limit`. -/
def workerPhase4 (data pat : List Nat) (plen : Nat) (limit : Int) (maxCollect : Nat)
    (p : Nat) (st : List Nat × Nat) : Nat × (List Nat × Nat) × Bool :=
  if h : (p : Int) < limit then
    if byteAt data p == byteAt pat 0 && verifyBytes data pat plen p then
      match workerRecord maxCollect st p with
      | none => (p, st, true)
      | some st2 => workerPhase4 data pat plen limit maxCollect (p + 1) st2
    else workerPhase4 data pat plen limit maxCollect (p + 1) st
  else (p, st, false)
termination_by limit.toNat - p
decreasing_by
  all_goals omega

/-- `worker_thread` (fastscan.c:51-116) on thread data
`{start = data + readStart, size = sz, true_chunk_start = tcs,
max_collect = maxCollect, global_start = data}`. Returns the worker's
local match buffer (what `cleanup:` returns to the joiner). -/
def worker_thread (data pat : List Nat) (plen al readStart sz tcs maxCollect : Nat) :
    List Nat :=
  let limit : Int := (readStart : Int) + sz - plen + 1
  let r1 := workerPhase1 data pat plen limit tcs maxCollect readStart ([], 0)
  if r1.2.2 then r1.2.1.1
  else
    let r2 := workerPhase2 data pat plen limit al maxCollect r1.1 r1.2.1
    if r2.2.2 then r2.2.1.1
    else
      let r3 := workerPhase3 data pat plen limit maxCollect r2.1 r2.2.1
      if r3.2.2 then r3.2.1.1
      else (workerPhase4 data pat plen limit maxCollect r3.1 r3.2.1).2.1.1

/-- Parallel branch of `fastscan_execute` (fastscan.c:149-206): partition
into `W = nth` logical chunks of `chunk = size / W` bytes (the last absorbs
the remainder), extend scan ranges by `pattern_len - 1` into the
neighbours, spawn workers, join, and concatenate the local buffers in
worker order truncated at the cap. `read_start = start_off - pattern_len
+ 1` is uint64 arithmetic, hence the `% 2 ^ 64`. `pthread_create`'s result
is ignored in C; `spawnOk i = false` means worker `i`'s spawn failed, so it
never runs and its zero-initialized thread data contributes nothing.
`malloc` of the final buffer is modelled as succeeding.

Body of the spawn loop (fastscan.c:158-181) for worker index `i`: the
thread-data setup and the thread itself. The mmap base is page-aligned, so
the worker's base alignment is 0.

`tds[i].start = data + read_start` and `tds[i].size = read_end -
read_start` are `uint64` arithmetic: when `pattern_len > start_off + 1`
the subtraction in `read_start` underflows to `≈ 2^64`, the worker's start
pointer lands below the buffer and its scan runs outside `data[0, size)`
(in the repository the buffer is mmap'd, so the page below it is unmapped).
The model keeps the wrapped values as plain offsets; every offset outside
`[0, data.length)` reads as 0 (`byteAt`), under which such a worker's scan
sees no occurrence of a pattern whose first byte is non-zero and its owned
matches are lost. -/
def workerReadStart (dlen plen W i : Nat) : Nat :=
  if i = 0 then 0 else (i * (dlen / W) + 1 + (2 ^ 64 - plen % 2 ^ 64)) % 2 ^ 64

def fastscan_worker (data pat : List Nat) (plen cap W i : Nat) : List Nat :=
  let chunk := data.length / W
  let startOff := i * chunk
  let endOff := if i = W - 1 then data.length else (i + 1) * chunk
  let readStart := workerReadStart data.length plen W i
  let readEnd0 := if i = W - 1 then data.length else endOff + plen - 1
  let readEnd := if readEnd0 > data.length then data.length else readEnd0
  worker_thread data pat plen 0 readStart ((readEnd + (2 ^ 64 - readStart)) % 2 ^ 64)
    startOff cap

def fastscan_execute_parallel (data pat : List Nat) (plen cap W : Nat)
    (spawnOk : Nat → Bool) : FsStatus × List Nat :=
  let results := (List.range W).map fun i =>
    if spawnOk i then fastscan_worker data pat plen cap W i else []
  let total := (results.map List.length).sum
  let finalCnt := if total > cap then cap else total
  (.success, results.flatten.take finalCnt)

/-- `fastscan_execute` (fastscan.c:136-207) over a loaded region holding
`data` (`total_size = ctx->region.size = data.length`): regions under
256 KiB are scanned by a direct `fs_scan_raw` call; larger regions go
through the parallel path with `W = max(1, nproc - 1)` workers. -/
def fastscan_execute (data pat : List Nat) (plen cap W : Nat) (spawnOk : Nat → Bool) :
    FsStatus × List Nat :=
  if data.length < 256 * 1024 then Scanner.fs_scan_raw data pat plen cap
  else fastscan_execute_parallel data pat plen cap W spawnOk

end Fastscan

namespace Fastscan

/-! ### Behaviour of the worker's growable buffer -/

/-- Invariant of the worker state: the count never exceeds the capacity and
the capacity never exceeds `max_collect`. -/
def WInv (maxCollect : Nat) (st : List Nat × Nat) : Prop :=
  st.1.length ≤ st.2 ∧ st.2 ≤ maxCollect

theorem workerRecord_none (maxCollect : Nat) (st : List Nat × Nat) (off : Nat)
    (h2 : st.2 ≤ maxCollect) (h : maxCollect ≤ st.1.length) :
    workerRecord maxCollect st off = none := by
  have ha : st.1.length ≥ st.2 := by omega
  have hb : st.1.length ≥ maxCollect := by omega
  simp [workerRecord, grow_buffer, ha, hb]

theorem workerRecord_some (maxCollect : Nat) (st : List Nat × Nat) (off : Nat)
    (hInv : WInv maxCollect st) (h : st.1.length < maxCollect) :
    ∃ c2, workerRecord maxCollect st off = some (st.1 ++ [off], c2) ∧
      WInv maxCollect (st.1 ++ [off], c2) := by
  obtain ⟨h1, h2⟩ := hInv
  by_cases hc : st.1.length ≥ st.2
  · have hcnt : ¬ st.1.length ≥ maxCollect := by omega
    have heq : st.1.length = st.2 := by omega
    refine ⟨if (if st.2 = 0 then 4096 else st.2 * 2) > maxCollect then maxCollect
      else (if st.2 = 0 then 4096 else st.2 * 2), ?_, ?_, ?_⟩
    · simp [workerRecord, grow_buffer, hc, hcnt]
    · simp only [List.length_append, List.length_cons, List.length_nil]
      by_cases h0 : st.2 = 0
      · have hz : st.1.length = 0 := by omega
        by_cases hbig : 4096 > maxCollect <;> simp [h0, hbig] <;> omega
      · have hpos : 1 ≤ st.2 := by omega
        by_cases hbig : st.2 * 2 > maxCollect <;> simp [h0, hbig] <;> omega
    · by_cases h0 : st.2 = 0
      · by_cases hbig : 4096 > maxCollect <;> simp [h0, hbig] <;> omega
      · by_cases hbig : st.2 * 2 > maxCollect <;> simp [h0, hbig] <;> omega
  · refine ⟨st.2, by simp [workerRecord, hc], ?_, h2⟩
    simp only [List.length_append, List.length_cons, List.length_nil]
    omega

/-- The position predicate recorded by a worker: full verification (every
candidate the worker verifies inside its range is in bounds). -/
def wmatch (data pat : List Nat) (plen : Nat) (c : Nat) : Bool :=
  verifyBytes data pat plen c

/-- The inner mask loop of PHASE 3: appends the verified candidates while
room remains, stopping (`goto cleanup`) at the first verified candidate
once the count has reached `max_collect`. -/
theorem workerCands_eq (data pat : List Nat) (plen maxCollect : Nat) :
    ∀ (cs : List Nat) (st : List Nat × Nat), WInv maxCollect st →
      ∃ c2,
        workerCands data pat plen maxCollect cs st =
          ((st.1 ++ (cs.filter (wmatch data pat plen)).take (maxCollect - st.1.length), c2),
            decide (maxCollect - st.1.length < (cs.filter (wmatch data pat plen)).length)) ∧
          WInv maxCollect
            (st.1 ++ (cs.filter (wmatch data pat plen)).take (maxCollect - st.1.length), c2) := by
  intro cs
  induction cs with
  | nil =>
    intro st hInv
    exact ⟨st.2, by simp [workerCands], by simpa using hInv⟩
  | cons c cs ih =>
    intro st hInv
    by_cases hv : verifyBytes data pat plen c = true
    · have hf : (c :: cs).filter (wmatch data pat plen) =
          c :: cs.filter (wmatch data pat plen) := by
        simp [wmatch, hv]
      by_cases hroom : st.1.length < maxCollect
      · obtain ⟨c2, hrec, hInv2⟩ := workerRecord_some maxCollect st c hInv hroom
        obtain ⟨c3, hrest, hInv3⟩ := ih (st.1 ++ [c], c2) hInv2
        simp only [List.length_append, List.length_cons, List.length_nil,
          Nat.zero_add] at hrest hInv3
        refine ⟨c3, ?_, ?_⟩
        · rw [workerCands, if_pos hv, hrec]
          show workerCands data pat plen maxCollect cs (st.1 ++ [c], c2) = _
          rw [hrest, hf]
          have hr : maxCollect - st.1.length = (maxCollect - (st.1.length + 1)) + 1 := by
            omega
          rw [hr, List.take_succ_cons, Prod.mk.injEq, Prod.mk.injEq]
          refine ⟨⟨?_, rfl⟩, ?_⟩
          · simp [List.append_assoc]
          · rw [decide_eq_decide]
            simp only [List.length_cons]
            omega
        · rw [hf]
          have hr : maxCollect - st.1.length = (maxCollect - (st.1.length + 1)) + 1 := by
            omega
          rw [hr, List.take_succ_cons]
          simpa using hInv3
      · have hrec := workerRecord_none maxCollect st c hInv.2 (by omega)
        refine ⟨st.2, ?_, ?_⟩
        · rw [workerCands, if_pos hv, hrec]
          have hr : maxCollect - st.1.length = 0 := by omega
          rw [hf, hr, List.take_zero, List.append_nil, Prod.mk.injEq, Prod.mk.injEq]
          refine ⟨⟨rfl, rfl⟩, ?_⟩
          simp
        · have hr : maxCollect - st.1.length = 0 := by omega
          rw [hr, List.take_zero, List.append_nil]
          exact hInv
    · have hf : (c :: cs).filter (wmatch data pat plen) =
          cs.filter (wmatch data pat plen) := by
        simp [wmatch, hv]
      obtain ⟨c2, hrest, hInv2⟩ := ih st hInv
      exact ⟨c2, by rw [workerCands, if_neg hv, hrest, hf], by rwa [hf]⟩

end Fastscan

namespace Fastscan

/-- A verified candidate has the right first byte, so the worker's
first-byte mask filter loses no match. -/
theorem filter_firstbyte_absorb (data pat : List Nat) (plen : Nat) (hp : 1 ≤ plen)
    (l : List Nat) :
    (l.filter fun c => byteAt data c == byteAt pat 0).filter (wmatch data pat plen) =
      l.filter (wmatch data pat plen) := by
  rw [List.filter_filter]
  apply List.filter_congr
  intro c _
  by_cases hv : wmatch data pat plen c = true
  · have h0 : (byteAt data c == byteAt pat 0) = true := by
      rw [verifyBytes_byte_zero hp hv]
      simp
    rw [hv, h0]
    rfl
  · rw [Bool.eq_false_iff.mpr hv]
    simp

/-- `matchesIn` split at a block that lies entirely below `lim`. -/
theorem matchesIn_split_inrange (data pat : List Nat) (plen lim s k : Nat)
    (h : s + k ≤ lim) :
    matchesIn data pat plen s lim =
      (List.range' s k).filter (wmatch data pat plen) ++
        matchesIn data pat plen (s + k) lim := by
  rw [matchesIn_split data pat plen lim s k]
  congr 1
  apply List.filter_congr
  intro c hc
  have hcb := List.mem_range'_1.mp hc
  simp only [goodAt, wmatch]
  rw [decide_eq_true (by omega : c < lim), Bool.true_and]

/-- Joint result of PHASE 3 and PHASE 4 (proof convenience; `worker_thread`
is definitionally this composition after PHASE 2). -/
def workerTail34 (data pat : List Nat) (plen : Nat) (limit : Int) (maxCollect p : Nat)
    (st : List Nat × Nat) : List Nat :=
  let r3 := workerPhase3 data pat plen limit maxCollect p st
  if r3.2.2 then r3.2.1.1
  else (workerPhase4 data pat plen limit maxCollect r3.1 r3.2.1).2.1.1

/-- Joint result of PHASES 2-4. -/
def workerTail234 (data pat : List Nat) (plen : Nat) (limit : Int) (al maxCollect p : Nat)
    (st : List Nat × Nat) : List Nat :=
  let r2 := workerPhase2 data pat plen limit al maxCollect p st
  if r2.2.2 then r2.2.1.1
  else workerTail34 data pat plen limit maxCollect r2.1 r2.2.1

/-- PHASE 4 from `p` appends the verified positions of `[p, limit)`,
truncated at `max_collect`. -/
theorem workerPhase4_eq (data pat : List Nat) (plen : Nat) (limit : Int)
    (maxCollect : Nat) (hp : 1 ≤ plen) :
    ∀ (n p : Nat) (st : List Nat × Nat), WInv maxCollect st → limit.toNat - p ≤ n →
      (workerPhase4 data pat plen limit maxCollect p st).2.1.1 =
        st.1 ++ (matchesIn data pat plen p limit.toNat).take (maxCollect - st.1.length) := by
  intro n
  induction n with
  | zero =>
    intro p st hInv hn
    rw [workerPhase4, dif_neg (by omega : ¬ (p : Int) < limit),
      matchesIn_stop (by omega : limit.toNat ≤ p)]
    simp
  | succ n ih =>
    intro p st hInv hn
    by_cases hplim : (p : Int) < limit
    · have hpl : p < limit.toNat := by omega
      by_cases hv : verifyBytes data pat plen p = true
      · have hcond : (byteAt data p == byteAt pat 0 && verifyBytes data pat plen p)
            = true := by
          rw [verifyBytes_byte_zero hp hv]
          simp [hv]
        have hsplit : matchesIn data pat plen p limit.toNat =
            [p] ++ matchesIn data pat plen (p + 1) limit.toNat := by
          rw [matchesIn_split_inrange data pat plen limit.toNat p 1 (by omega)]
          congr 1
          simp [wmatch, hv]
        by_cases hroom : st.1.length < maxCollect
        · obtain ⟨c2, hrec, hInv2⟩ := workerRecord_some maxCollect st p hInv hroom
          rw [workerPhase4, dif_pos hplim, if_pos hcond, hrec]
          show (workerPhase4 data pat plen limit maxCollect (p + 1)
            (st.1 ++ [p], c2)).2.1.1 = _
          rw [ih (p + 1) (st.1 ++ [p], c2) hInv2 (by omega)]
          simp only [List.length_append, List.length_cons, List.length_nil,
            Nat.zero_add]
          rw [hsplit, List.singleton_append,
            (by omega : maxCollect - st.1.length = (maxCollect - (st.1.length + 1)) + 1),
            List.take_succ_cons]
          simp [List.append_assoc]
        · have hrec := workerRecord_none maxCollect st p hInv.2 (by omega)
          rw [workerPhase4, dif_pos hplim, if_pos hcond, hrec]
          show st.1 = _
          rw [(by omega : maxCollect - st.1.length = 0), List.take_zero,
            List.append_nil]
      · have hcond : ¬ (byteAt data p == byteAt pat 0 && verifyBytes data pat plen p)
            = true := by
          simp [hv]
        have hsplit : matchesIn data pat plen p limit.toNat =
            matchesIn data pat plen (p + 1) limit.toNat := by
          rw [matchesIn_split_inrange data pat plen limit.toNat p 1 (by omega)]
          have : (List.range' p 1).filter (wmatch data pat plen) = [] := by
            simp [wmatch, hv]
          rw [this, List.nil_append]
        rw [workerPhase4, dif_pos hplim, if_neg hcond]
        rw [ih (p + 1) st hInv (by omega), hsplit]
    · rw [workerPhase4, dif_neg hplim,
        matchesIn_stop (by omega : limit.toNat ≤ p)]
      simp

/-- One unfolding of PHASE 3 in the looping case. -/
theorem workerPhase3_step (data pat : List Nat) (plen : Nat) (limit : Int)
    (maxCollect p : Nat) (st : List Nat × Nat) (h : (p : Int) < limit - 16) :
    workerPhase3 data pat plen limit maxCollect p st =
      (if (workerCands data pat plen maxCollect
            (((List.range 16).map (p + ·)).filter fun c => byteAt data c == byteAt pat 0)
            st).2
        then (p, (workerCands data pat plen maxCollect
            (((List.range 16).map (p + ·)).filter fun c => byteAt data c == byteAt pat 0)
            st).1, true)
        else if (workerCands data pat plen maxCollect
            (((List.range 16).map (p + ·)).filter fun c => byteAt data c == byteAt pat 0)
            st).1.1.length ≥ maxCollect
          then (p + 16, (workerCands data pat plen maxCollect
            (((List.range 16).map (p + ·)).filter fun c => byteAt data c == byteAt pat 0)
            st).1, true)
          else workerPhase3 data pat plen limit maxCollect (p + 16)
            (workerCands data pat plen maxCollect
              (((List.range 16).map (p + ·)).filter fun c => byteAt data c == byteAt pat 0)
              st).1) := by
  rw [workerPhase3]
  rw [dif_pos h]

/-- PHASES 3-4 from `p` append the verified positions of `[p, limit)`,
truncated at `max_collect`. -/
theorem workerTail34_eq (data pat : List Nat) (plen : Nat) (limit : Int)
    (maxCollect : Nat) (hp : 1 ≤ plen) :
    ∀ (n p : Nat) (st : List Nat × Nat), WInv maxCollect st → limit.toNat - p ≤ n →
      workerTail34 data pat plen limit maxCollect p st =
        st.1 ++ (matchesIn data pat plen p limit.toNat).take (maxCollect - st.1.length) := by
  intro n
  induction n with
  | zero =>
    intro p st hInv hn
    unfold workerTail34
    rw [workerPhase3, dif_neg (by omega : ¬ (p : Int) < limit - 16)]
    exact workerPhase4_eq data pat plen limit maxCollect hp limit.toNat p st hInv
      (by omega)
  | succ n ih =>
    intro p st hInv hn
    by_cases h3 : (p : Int) < limit - 16
    · have hblock : p + 16 ≤ limit.toNat := by omega
      obtain ⟨c2, hstep, hInv2⟩ := workerCands_eq data pat plen maxCollect
        (((List.range 16).map (p + ·)).filter fun c => byteAt data c == byteAt pat 0)
        st hInv
      have habs : ((((List.range 16).map (p + ·)).filter
          fun c => byteAt data c == byteAt pat 0).filter (wmatch data pat plen)) =
          (List.range' p 16).filter (wmatch data pat plen) := by
        rw [filter_firstbyte_absorb data pat plen hp, ← List.range'_eq_map_range]
      rw [habs] at hstep hInv2
      have hsplit := matchesIn_split_inrange data pat plen limit.toNat p 16 hblock
      by_cases hc1 : maxCollect - st.1.length <
          ((List.range' p 16).filter (wmatch data pat plen)).length
      · have h1 : workerPhase3 data pat plen limit maxCollect p st =
            (p, (st.1 ++ ((List.range' p 16).filter (wmatch data pat plen)).take
              (maxCollect - st.1.length), c2), true) := by
          rw [workerPhase3_step data pat plen limit maxCollect p st h3, hstep]
          simp [hc1]
        unfold workerTail34
        rw [h1]
        show st.1 ++ ((List.range' p 16).filter (wmatch data pat plen)).take
            (maxCollect - st.1.length) = _
        rw [hsplit, List.take_append_eq_append_take,
          (by omega : maxCollect - st.1.length -
            ((List.range' p 16).filter (wmatch data pat plen)).length = 0),
          List.take_zero, List.append_nil]
      · have htake : ((List.range' p 16).filter (wmatch data pat plen)).take
            (maxCollect - st.1.length) =
            (List.range' p 16).filter (wmatch data pat plen) :=
          List.take_of_length_le (by omega)
        rw [htake] at hstep hInv2
        by_cases hc2 : (st.1 ++ (List.range' p 16).filter (wmatch data pat plen)).length
            ≥ maxCollect
        · have h1 : workerPhase3 data pat plen limit maxCollect p st =
              (p + 16, (st.1 ++ (List.range' p 16).filter (wmatch data pat plen), c2),
                true) := by
            rw [workerPhase3_step data pat plen limit maxCollect p st h3, hstep]
            simp [hc1, hc2]
            intro hcon
            exfalso
            simp only [List.length_append] at hc2
            omega
          unfold workerTail34
          rw [h1]
          show st.1 ++ (List.range' p 16).filter (wmatch data pat plen) = _
          have hr : maxCollect - st.1.length =
              ((List.range' p 16).filter (wmatch data pat plen)).length := by
            simp only [List.length_append] at hc2
            omega
          rw [hsplit, List.take_append_eq_append_take, hr, List.take_of_length_le
            (by omega), Nat.sub_self, List.take_zero, List.append_nil]
        · have h1 : workerPhase3 data pat plen limit maxCollect p st =
              workerPhase3 data pat plen limit maxCollect (p + 16)
                (st.1 ++ (List.range' p 16).filter (wmatch data pat plen), c2) := by
            rw [workerPhase3_step data pat plen limit maxCollect p st h3, hstep]
            simp [hc1, hc2]
            intro hcon
            exfalso
            simp only [List.length_append] at hc2
            omega
          unfold workerTail34
          rw [h1]
          show workerTail34 data pat plen limit maxCollect (p + 16)
            (st.1 ++ (List.range' p 16).filter (wmatch data pat plen), c2) = _
          rw [ih (p + 16) (st.1 ++ (List.range' p 16).filter (wmatch data pat plen), c2)
            hInv2 (by omega)]
          simp only [List.length_append]
          rw [hsplit, List.take_append_eq_append_take, htake, ← List.append_assoc]
          congr 2
          omega
    · unfold workerTail34
      rw [workerPhase3, dif_neg h3]
      exact workerPhase4_eq data pat plen limit maxCollect hp limit.toNat p st hInv
        (by omega)

end Fastscan

namespace Fastscan

/-- PHASES 2-4 from `p` append the verified positions of `[p, limit)`,
truncated at `max_collect`, regardless of the alignment `al` at which the
scalar-to-SIMD handover happens. -/
theorem workerTail234_eq (data pat : List Nat) (plen : Nat) (limit : Int)
    (al maxCollect : Nat) (hp : 1 ≤ plen) :
    ∀ (n p : Nat) (st : List Nat × Nat), WInv maxCollect st → limit.toNat - p ≤ n →
      workerTail234 data pat plen limit al maxCollect p st =
        st.1 ++ (matchesIn data pat plen p limit.toNat).take (maxCollect - st.1.length) := by
  intro n
  induction n with
  | zero =>
    intro p st hInv hn
    unfold workerTail234
    rw [workerPhase2, dif_neg (by omega :
      ¬ ((al + p) % 16 ≠ 0 ∧ (p : Int) < limit))]
    exact workerTail34_eq data pat plen limit maxCollect hp limit.toNat p st hInv
      (by omega)
  | succ n ih =>
    intro p st hInv hn
    by_cases hcond : (al + p) % 16 ≠ 0 ∧ (p : Int) < limit
    · have hpl : p < limit.toNat := by omega
      by_cases hv : verifyBytes data pat plen p = true
      · have hc : (byteAt data p == byteAt pat 0 && verifyBytes data pat plen p)
            = true := by
          rw [verifyBytes_byte_zero hp hv]
          simp [hv]
        have hsplit : matchesIn data pat plen p limit.toNat =
            [p] ++ matchesIn data pat plen (p + 1) limit.toNat := by
          rw [matchesIn_split_inrange data pat plen limit.toNat p 1 (by omega)]
          congr 1
          simp [wmatch, hv]
        by_cases hroom : st.1.length < maxCollect
        · obtain ⟨c2, hrec, hInv2⟩ := workerRecord_some maxCollect st p hInv hroom
          have hph2 : workerPhase2 data pat plen limit al maxCollect p st =
              workerPhase2 data pat plen limit al maxCollect (p + 1) (st.1 ++ [p], c2) := by
            rw [workerPhase2, dif_pos hcond, if_pos hc, hrec]
          have hpipe : workerTail234 data pat plen limit al maxCollect p st =
              workerTail234 data pat plen limit al maxCollect (p + 1) (st.1 ++ [p], c2) := by
            unfold workerTail234
            rw [hph2]
          rw [hpipe, ih (p + 1) (st.1 ++ [p], c2) hInv2 (by omega)]
          simp only [List.length_append, List.length_cons, List.length_nil,
            Nat.zero_add]
          rw [hsplit, List.singleton_append,
            (by omega : maxCollect - st.1.length = (maxCollect - (st.1.length + 1)) + 1),
            List.take_succ_cons]
          simp [List.append_assoc]
        · have hrec := workerRecord_none maxCollect st p hInv.2 (by omega)
          have hph2 : workerPhase2 data pat plen limit al maxCollect p st =
              (p, st, true) := by
            rw [workerPhase2, dif_pos hcond, if_pos hc, hrec]
          unfold workerTail234
          rw [hph2]
          show st.1 = _
          rw [(by omega : maxCollect - st.1.length = 0), List.take_zero,
            List.append_nil]
      · have hc : ¬ (byteAt data p == byteAt pat 0 && verifyBytes data pat plen p)
            = true := by
          simp [hv]
        have hsplit : matchesIn data pat plen p limit.toNat =
            matchesIn data pat plen (p + 1) limit.toNat := by
          rw [matchesIn_split_inrange data pat plen limit.toNat p 1 (by omega)]
          have hnone : (List.range' p 1).filter (wmatch data pat plen) = [] := by
            simp [wmatch, hv]
          rw [hnone, List.nil_append]
        have hph2 : workerPhase2 data pat plen limit al maxCollect p st =
            workerPhase2 data pat plen limit al maxCollect (p + 1) st := by
          rw [workerPhase2, dif_pos hcond, if_neg hc]
        have hpipe : workerTail234 data pat plen limit al maxCollect p st =
            workerTail234 data pat plen limit al maxCollect (p + 1) st := by
          unfold workerTail234
          rw [hph2]
        rw [hpipe, ih (p + 1) st hInv (by omega), hsplit]
    · unfold workerTail234
      rw [workerPhase2, dif_neg hcond]
      exact workerTail34_eq data pat plen limit maxCollect hp limit.toNat p st hInv
        (by omega)

/-- PHASE 1 only advances the cursor to `min limit overlap_end`: the guard
`abs_off >= true_chunk_start` contradicts the loop bound, so nothing is
recorded and no cleanup is taken. -/
theorem workerPhase1_eq (data pat : List Nat) (plen : Nat) (limit : Int)
    (tcs maxCollect : Nat) :
    ∀ (n p : Nat) (st : List Nat × Nat), tcs - p ≤ n →
      workerPhase1 data pat plen limit tcs maxCollect p st =
        (if (p : Int) < limit ∧ p < tcs then min limit.toNat tcs else p, st, false) := by
  intro n
  induction n with
  | zero =>
    intro p st hn
    rw [workerPhase1, dif_neg (by omega : ¬ ((p : Int) < limit ∧ p < tcs)),
      if_neg (by omega : ¬ ((p : Int) < limit ∧ p < tcs))]
  | succ n ih =>
    intro p st hn
    by_cases hcond : (p : Int) < limit ∧ p < tcs
    · have hrec : workerPhase1 data pat plen limit tcs maxCollect p st =
          workerPhase1 data pat plen limit tcs maxCollect (p + 1) st := by
        rw [workerPhase1, dif_pos hcond]
        by_cases hb : (byteAt data p == byteAt pat 0) = true
        · rw [if_pos hb]
          by_cases hv : verifyBytes data pat plen p = true
          · rw [if_pos hv, if_neg (by omega : ¬ p ≥ tcs)]
          · rw [if_neg hv]
        · rw [if_neg hb]
      rw [hrec, ih (p + 1) st (by omega), if_pos hcond]
      by_cases hcond2 : (((p + 1) : Nat) : Int) < limit ∧ p + 1 < tcs
      · rw [if_pos hcond2]
      · rw [if_neg hcond2]
        have : p + 1 = min limit.toNat tcs := by omega
        rw [this]
    · rw [workerPhase1, dif_neg hcond, if_neg hcond]

/-- `worker_thread` produces exactly the naive matches whose starting
offset lies in the worker's owned range `[true_chunk_start, limit)`,
truncated at `max_collect` — for any base alignment, provided the pattern
is non-empty and the scan range starts at or before the owned start. -/
theorem worker_thread_eq (data pat : List Nat) (plen al readStart sz tcs maxCollect : Nat)
    (hp : 1 ≤ plen) (hrs : readStart ≤ tcs) :
    worker_thread data pat plen al readStart sz tcs maxCollect =
      (matchesIn data pat plen tcs ((readStart : Int) + sz - plen + 1).toNat).take
        maxCollect := by
  have hIter : worker_thread data pat plen al readStart sz tcs maxCollect =
      (let r1 := workerPhase1 data pat plen ((readStart : Int) + sz - plen + 1) tcs
        maxCollect readStart ([], 0)
       if r1.2.2 then r1.2.1.1
       else workerTail234 data pat plen ((readStart : Int) + sz - plen + 1) al maxCollect
         r1.1 r1.2.1) := rfl
  rw [hIter, workerPhase1_eq data pat plen ((readStart : Int) + sz - plen + 1) tcs
    maxCollect tcs readStart ([], 0) (by omega)]
  show workerTail234 data pat plen ((readStart : Int) + sz - plen + 1) al maxCollect
      (if (readStart : Int) < (readStart : Int) + sz - plen + 1 ∧ readStart < tcs
        then min ((readStart : Int) + sz - plen + 1).toNat tcs else readStart)
      ([], 0) = _
  have h234 := workerTail234_eq data pat plen ((readStart : Int) + sz - plen + 1) al
    maxCollect hp ((readStart : Int) + sz - plen + 1).toNat
  by_cases hcond : (readStart : Int) < (readStart : Int) + sz - plen + 1 ∧ readStart < tcs
  · rw [if_pos hcond]
    rw [h234 (min ((readStart : Int) + sz - plen + 1).toNat tcs) ([], 0)
      (by constructor <;> simp) (by omega)]
    simp only [List.nil_append, List.length_nil, Nat.sub_zero]
    rcases Nat.le_total tcs ((readStart : Int) + sz - plen + 1).toNat with h | h
    · rw [min_eq_right h]
    · rw [min_eq_left h, matchesIn_stop h, matchesIn_stop (by omega)]
  · rw [if_neg hcond]
    rw [h234 readStart ([], 0) (by constructor <;> simp) (by omega)]
    simp only [List.nil_append, List.length_nil, Nat.sub_zero]
    rcases Nat.lt_or_ge readStart tcs with hlt | hge
    · have hL : ((readStart : Int) + sz - plen + 1).toNat ≤ readStart := by omega
      rw [matchesIn_stop hL, matchesIn_stop (by omega)]
    · have : readStart = tcs := by omega
      rw [this]

end Fastscan

namespace Fastscan

/-! ### Merging the per-worker segments -/

theorem matchesIn_append (data pat : List Nat) (plen a b c : Nat)
    (hab : a ≤ b) (hbc : b ≤ c) :
    matchesIn data pat plen a b ++ matchesIn data pat plen b c =
      matchesIn data pat plen a c := by
  unfold matchesIn
  rw [← List.filter_append]
  congr 1
  have h1 : b = a + (b - a) := by omega
  calc List.range' a (b - a) ++ List.range' b (c - b)
      = List.range' a (b - a) ++ List.range' (a + (b - a)) (c - b) := by rw [← h1]
    _ = List.range' a ((c - b) + (b - a)) := List.range'_append_1 a (b - a) (c - b)
    _ = List.range' a (c - a) := by
        congr 1
        omega

/-- Chaining the clamped per-worker intervals tiles `[0, limTop)`. -/
theorem matchesIn_chain (data pat : List Nat) (plen chunk limTop : Nat) :
    ∀ k, (((List.range k).map fun i => matchesIn data pat plen (i * chunk)
        (min limTop ((i + 1) * chunk)))).flatten =
      matchesIn data pat plen 0 (min limTop (k * chunk)) := by
  intro k
  induction k with
  | zero =>
    simp [matchesIn_stop]
  | succ k ih =>
    rw [List.range_succ, List.map_append, List.flatten_append]
    simp only [List.map_cons, List.map_nil, List.flatten_cons, List.flatten_nil,
      List.append_nil]
    rw [ih]
    rcases Nat.le_total (k * chunk) limTop with h | h
    · rw [min_eq_right h]
      have hstep : k * chunk ≤ (k + 1) * chunk := by
        exact Nat.mul_le_mul_right chunk (by omega)
      rcases Nat.le_total ((k + 1) * chunk) limTop with h2 | h2
      · rw [min_eq_right h2, matchesIn_append data pat plen 0 (k * chunk) ((k + 1) * chunk)
          (by omega) hstep]
      · rw [min_eq_left h2, matchesIn_append data pat plen 0 (k * chunk) limTop
          (by omega) h]
    · rw [min_eq_left h]
      have h2 : min limTop ((k + 1) * chunk) = limTop := by
        have hstep : k * chunk ≤ (k + 1) * chunk := Nat.mul_le_mul_right chunk (by omega)
        exact min_eq_left (by omega)
      rw [h2, matchesIn_stop h, List.append_nil]

/-- The merge's `final_cnt = min(total, cap)` truncation equals a plain
truncation at `cap`. -/
theorem take_total_cap (xs : List (List Nat)) (cap : Nat) :
    xs.flatten.take (if (xs.map List.length).sum > cap then cap
      else (xs.map List.length).sum) = xs.flatten.take cap := by
  have hlen : xs.flatten.length = (xs.map List.length).sum := List.length_flatten xs
  by_cases h : (xs.map List.length).sum > cap
  · rw [if_pos h]
  · rw [if_neg h, ← hlen, List.take_length]
    exact (List.take_of_length_le (by omega)).symm

/-- The `uint64` evaluation of `start_off - pattern_len + 1` under
no-underflow conditions. -/
theorem uint64_sub_add_one (a b : Nat) (hb1 : 1 ≤ b) (hba : b ≤ a + 1)
    (ha : a < 2 ^ 64) :
    (a + 1 + (2 ^ 64 - b % 2 ^ 64)) % 2 ^ 64 = a + 1 - b := by
  by_cases hb : b < 2 ^ 64
  · rw [Nat.mod_eq_of_lt hb]
    rw [show a + 1 + (2 ^ 64 - b) = (a + 1 - b) + 2 ^ 64 from by omega]
    rw [Nat.add_mod_right]
    exact Nat.mod_eq_of_lt (by omega)
  · have hbeq : b = 2 ^ 64 := by omega
    have haeq : a + 1 = 2 ^ 64 := by omega
    rw [hbeq, Nat.mod_self, Nat.sub_zero, haeq]
    simp

/-- The `uint64` evaluation of `read_end - read_start` when the start does
not exceed the end. -/
theorem uint64_size_sub (e s : Nat) (hse : s ≤ e) (he : e < 2 ^ 64) :
    (e + (2 ^ 64 - s)) % 2 ^ 64 = e - s := by
  rw [show e + (2 ^ 64 - s) = (e - s) + 2 ^ 64 from by omega, Nat.add_mod_right]
  exact Nat.mod_eq_of_lt (by omega)

/-- The value of worker `i`'s local buffer: the naive matches of its owned
interval, truncated at the cap. The owned intervals are
`[i·chunk, min(limTop, (i+1)·chunk))` with the last worker extending to
`limTop = data_len + 1 - plen`. -/
theorem fastscan_worker_eq (data pat : List Nat) (plen cap W i : Nat)
    (hp : 1 ≤ plen) (hW : 1 ≤ W) (hchunk : plen ≤ data.length / W + 1)
    (h64 : data.length < 2 ^ 64) (hi : i < W) :
    fastscan_worker data pat plen cap W i =
      (matchesIn data pat plen (i * (data.length / W))
        (if i = W - 1 then data.length + 1 - plen
         else min (data.length + 1 - plen) ((i + 1) * (data.length / W)))).take cap := by
  have hcW : (data.length / W) * W ≤ data.length := Nat.div_mul_le_self data.length W
  have hiub : i * (data.length / W) + (data.length / W) ≤ data.length := by
    have h1 : i + 1 ≤ W := by omega
    have h2 : (i + 1) * (data.length / W) ≤ W * (data.length / W) :=
      Nat.mul_le_mul_right (data.length / W) h1
    have h3 : W * (data.length / W) = (data.length / W) * W := Nat.mul_comm W _
    have h4 : (i + 1) * (data.length / W) = i * (data.length / W) + (data.length / W) :=
      Nat.succ_mul i (data.length / W)
    omega
  have hchle : data.length / W ≤ i * (data.length / W) + (data.length / W) := by omega
  by_cases hlast : i = W - 1
  · -- last worker: readEnd = data.length
    by_cases h0 : i = 0
    · have hbody : fastscan_worker data pat plen cap W i =
          worker_thread data pat plen 0 0 (data.length - 0) (i * (data.length / W)) cap := by
        simp only [fastscan_worker, workerReadStart]
        rw [if_pos h0, if_pos hlast, if_neg (by omega : ¬ data.length > data.length)]
        rw [uint64_size_sub data.length 0 (Nat.zero_le _) h64]
      rw [hbody, worker_thread_eq data pat plen 0 0 (data.length - 0)
        (i * (data.length / W)) cap hp (by omega)]
      congr 2
      · rw [if_pos hlast]
        have hplen1 : plen ≤ data.length + 1 := by
          have := Nat.div_le_self data.length W
          omega
        omega
    · have hmod : (i * (data.length / W) + 1 + (2 ^ 64 - plen % 2 ^ 64)) % 2 ^ 64 =
          i * (data.length / W) + 1 - plen := by
        apply uint64_sub_add_one _ _ hp ?_ (by omega)
        have : data.length / W ≤ i * (data.length / W) :=
          Nat.le_mul_of_pos_left _ (by omega)
        omega
      have hbody : fastscan_worker data pat plen cap W i =
          worker_thread data pat plen 0 (i * (data.length / W) + 1 - plen)
            (data.length - (i * (data.length / W) + 1 - plen))
            (i * (data.length / W)) cap := by
        simp only [fastscan_worker, workerReadStart]
        rw [if_neg h0, if_pos hlast, if_neg (by omega : ¬ data.length > data.length), hmod]
        rw [uint64_size_sub data.length (i * (data.length / W) + 1 - plen) (by omega) h64]
      rw [hbody, worker_thread_eq data pat plen 0 _ _ _ cap hp (by omega)]
      congr 2
      · rw [if_pos hlast]
        have hrs_le : i * (data.length / W) + 1 - plen ≤ data.length := by omega
        omega
  · -- not the last worker: readEnd = min(data.length, (i+1)*chunk + plen - 1)
    have hiW1 : i < W - 1 := by omega
    have hup : (i + 1) * (data.length / W) = i * (data.length / W) + (data.length / W) :=
      Nat.succ_mul i (data.length / W)
    by_cases hclamp : (i + 1) * (data.length / W) + plen - 1 > data.length
    · -- clamped to data.length
      by_cases h0 : i = 0
      · have hbody : fastscan_worker data pat plen cap W i =
            worker_thread data pat plen 0 0 (data.length - 0) (i * (data.length / W)) cap := by
          simp only [fastscan_worker, workerReadStart]
          rw [if_pos h0, if_neg hlast, if_neg hlast, if_pos hclamp]
          rw [uint64_size_sub data.length 0 (Nat.zero_le _) h64]
        rw [hbody, worker_thread_eq data pat plen 0 0 _ _ cap hp (by omega)]
        congr 2
        rw [if_neg hlast]
        have hplen1 : plen ≤ data.length + 1 := by
          have := Nat.div_le_self data.length W
          omega
        omega
      · have hmod : (i * (data.length / W) + 1 + (2 ^ 64 - plen % 2 ^ 64)) % 2 ^ 64 =
            i * (data.length / W) + 1 - plen := by
          apply uint64_sub_add_one _ _ hp ?_ (by omega)
          have : data.length / W ≤ i * (data.length / W) :=
            Nat.le_mul_of_pos_left _ (by omega)
          omega
        have hbody : fastscan_worker data pat plen cap W i =
            worker_thread data pat plen 0 (i * (data.length / W) + 1 - plen)
              (data.length - (i * (data.length / W) + 1 - plen))
              (i * (data.length / W)) cap := by
          simp only [fastscan_worker, workerReadStart]
          rw [if_neg h0, if_neg hlast, if_neg hlast, if_pos hclamp, hmod]
          rw [uint64_size_sub data.length (i * (data.length / W) + 1 - plen) (by omega) h64]
        rw [hbody, worker_thread_eq data pat plen 0 _ _ _ cap hp (by omega)]
        congr 2
        rw [if_neg hlast]
        have hrs_le : i * (data.length / W) + 1 - plen ≤ data.length := by omega
        omega
    · -- unclamped: readEnd = (i+1)*chunk + plen - 1
      by_cases h0 : i = 0
      · have hbody : fastscan_worker data pat plen cap W i =
            worker_thread data pat plen 0 0
              ((i + 1) * (data.length / W) + plen - 1 - 0)
              (i * (data.length / W)) cap := by
          simp only [fastscan_worker, workerReadStart]
          rw [if_pos h0, if_neg hlast, if_neg hlast, if_neg hclamp]
          rw [uint64_size_sub ((i + 1) * (data.length / W) + plen - 1) 0 (Nat.zero_le _)
            (by omega)]
        rw [hbody, worker_thread_eq data pat plen 0 0 _ _ cap hp (by omega)]
        congr 2
        rw [if_neg hlast]
        omega
      · have hmod : (i * (data.length / W) + 1 + (2 ^ 64 - plen % 2 ^ 64)) % 2 ^ 64 =
            i * (data.length / W) + 1 - plen := by
          apply uint64_sub_add_one _ _ hp ?_ (by omega)
          have : data.length / W ≤ i * (data.length / W) :=
            Nat.le_mul_of_pos_left _ (by omega)
          omega
        have hbody : fastscan_worker data pat plen cap W i =
            worker_thread data pat plen 0 (i * (data.length / W) + 1 - plen)
              ((i + 1) * (data.length / W) + plen - 1 - (i * (data.length / W) + 1 - plen))
              (i * (data.length / W)) cap := by
          simp only [fastscan_worker, workerReadStart]
          rw [if_neg h0, if_neg hlast, if_neg hlast, if_neg hclamp, hmod]
          rw [uint64_size_sub ((i + 1) * (data.length / W) + plen - 1)
            (i * (data.length / W) + 1 - plen) (by omega) (by omega)]
        rw [hbody, worker_thread_eq data pat plen 0 _ _ _ cap hp (by omega)]
        congr 2
        rw [if_neg hlast]
        have hcc : data.length / W ≤ i * (data.length / W) :=
          Nat.le_mul_of_pos_left _ (by omega)
        omega

end Fastscan

namespace Fastscan

/-- The parallel path of `fastscan_execute`, with every spawn succeeding,
produces exactly the first `cap` naive matches. -/
theorem fastscan_execute_parallel_eq (data pat : List Nat) (plen cap W : Nat)
    (hp : 1 ≤ plen) (hW : 1 ≤ W) (hchunk : plen ≤ data.length / W + 1)
    (h64 : data.length < 2 ^ 64) :
    fastscan_execute_parallel data pat plen cap W (fun _ => true) =
      (.success, (naiveMatches data pat plen).take cap) := by
  have hplen1 : plen ≤ data.length + 1 := by
    have := Nat.div_le_self data.length W
    omega
  have hmerge : fastscan_execute_parallel data pat plen cap W (fun _ => true) =
      (.success, ((List.range W).map fun i =>
        if (fun _ => true) i then fastscan_worker data pat plen cap W i
        else []).flatten.take cap) :=
    congrArg (fun l => ((FsStatus.success : FsStatus), l)) (take_total_cap _ cap)
  rw [hmerge]
  have hsel : ((List.range W).map fun i =>
      if (fun _ => true) i then fastscan_worker data pat plen cap W i else []) =
      (List.range W).map fun i =>
        (matchesIn data pat plen (i * (data.length / W))
          (if i = W - 1 then data.length + 1 - plen
           else min (data.length + 1 - plen) ((i + 1) * (data.length / W)))).take cap := by
    apply List.map_congr_left
    intro i hi
    rw [if_pos rfl]
    exact fastscan_worker_eq data pat plen cap W i hp hW hchunk h64
      (List.mem_range.mp hi)
  rw [hsel]
  have hmapmap : ((List.range W).map fun i =>
      (matchesIn data pat plen (i * (data.length / W))
        (if i = W - 1 then data.length + 1 - plen
         else min (data.length + 1 - plen) ((i + 1) * (data.length / W)))).take cap) =
      ((List.range W).map fun i =>
        matchesIn data pat plen (i * (data.length / W))
          (if i = W - 1 then data.length + 1 - plen
           else min (data.length + 1 - plen) ((i + 1) * (data.length / W)))).map
        (fun s => s.take cap) := by
    rw [List.map_map]
    rfl
  rw [hmapmap, take_flatten_take cap _ cap (le_refl cap)]
  have hflat : ((List.range W).map fun i =>
      matchesIn data pat plen (i * (data.length / W))
        (if i = W - 1 then data.length + 1 - plen
         else min (data.length + 1 - plen) ((i + 1) * (data.length / W)))).flatten =
      matchesIn data pat plen 0 (data.length + 1 - plen) := by
    obtain ⟨V, rfl⟩ : ∃ V, W = V + 1 := ⟨W - 1, by omega⟩
    rw [List.range_succ, List.map_append, List.flatten_append]
    have hfirst : ((List.range V).map fun i =>
        matchesIn data pat plen (i * (data.length / (V + 1)))
          (if i = V + 1 - 1 then data.length + 1 - plen
           else min (data.length + 1 - plen) ((i + 1) * (data.length / (V + 1))))) =
        (List.range V).map fun i =>
          matchesIn data pat plen (i * (data.length / (V + 1)))
            (min (data.length + 1 - plen) ((i + 1) * (data.length / (V + 1)))) := by
      apply List.map_congr_left
      intro i hi
      have : ¬ i = V + 1 - 1 := by
        have := List.mem_range.mp hi
        omega
      rw [if_neg this]
    rw [hfirst, matchesIn_chain data pat plen (data.length / (V + 1))
      (data.length + 1 - plen) V]
    simp only [List.map_cons, List.map_nil, List.flatten_cons, List.flatten_nil,
      List.append_nil]
    rw [if_pos (by omega : V = V + 1 - 1)]
    rcases Nat.le_total (V * (data.length / (V + 1))) (data.length + 1 - plen) with h | h
    · rw [min_eq_right h]
      exact matchesIn_append data pat plen 0 (V * (data.length / (V + 1)))
        (data.length + 1 - plen) (by omega) h
    · rw [min_eq_left h, matchesIn_stop h, List.append_nil]
  rw [hflat]
  have hnaive : matchesIn data pat plen 0 (data.length + 1 - plen) =
      naiveMatches data pat plen := by
    by_cases hl : data.length < plen
    · have hz : data.length + 1 - plen = 0 := by omega
      rw [hz]
      unfold naiveMatches
      rw [if_pos hl]
      rfl
    · rw [naiveMatches_eq_matchesIn data pat plen (by omega),
        show data.length + 1 - plen = data.length - plen + 1 from by omega]
  rw [hnaive]

/-- The parallel path equals the single-threaded path, byte for byte. -/
theorem parallel_eq_sequential (data pat : List Nat) (plen cap W : Nat)
    (hp : 1 ≤ plen) (hW : 1 ≤ W) (hchunk : plen ≤ data.length / W + 1)
    (h64 : data.length < 2 ^ 64) :
    fastscan_execute_parallel data pat plen cap W (fun _ => true) =
      Scanner.fs_scan_raw data pat plen cap := by
  rw [fastscan_execute_parallel_eq data pat plen cap W hp hW hchunk h64,
    Scanner.fs_scan_raw_eq_naive data pat plen cap hp]

end Fastscan

/-! ### Workers whose scan range lies outside the buffer

When `pattern_len > start_off + 1`, `read_start = start_off - pattern_len
+ 1` (fastscan.c:173) underflows and the worker's scan positions lie
entirely above `2^64 - pattern_len`, far beyond `data.length`. Every byte
it reads is outside the buffer (0 in the model), so a pattern with a
non-zero first byte never passes the first-byte check and the worker
collects nothing. -/

namespace Fastscan

theorem workerPhase1_nomiss (data pat : List Nat) (plen : Nat) (limit : Int)
    (tcs maxCollect : Nat) :
    ∀ n p st, tcs ≤ p + n →
      (∀ q, p ≤ q → (byteAt data q == byteAt pat 0) = false) →
      ∃ p2, workerPhase1 data pat plen limit tcs maxCollect p st = (p2, st, false) ∧
        p ≤ p2 := by
  intro n
  induction n with
  | zero =>
    intro p st h _
    refine ⟨p, ?_, le_refl p⟩
    rw [workerPhase1, dif_neg (by omega : ¬((p : Int) < limit ∧ p < tcs))]
  | succ n ih =>
    intro p st h hm
    by_cases hc : (p : Int) < limit ∧ p < tcs
    · rw [workerPhase1, dif_pos hc, hm p (le_refl p)]
      simp only [Bool.false_eq_true, if_false]
      obtain ⟨p2, h2, hle⟩ := ih (p + 1) st (by omega) fun q hq => hm q (by omega)
      exact ⟨p2, h2, by omega⟩
    · rw [workerPhase1, dif_neg hc]
      exact ⟨p, rfl, le_refl p⟩

theorem workerPhase2_nomiss (data pat : List Nat) (plen : Nat) (limit : Int)
    (al maxCollect : Nat) :
    ∀ n p st, limit.toNat ≤ p + n →
      (∀ q, p ≤ q → (byteAt data q == byteAt pat 0) = false) →
      ∃ p2, workerPhase2 data pat plen limit al maxCollect p st = (p2, st, false) ∧
        p ≤ p2 := by
  intro n
  induction n with
  | zero =>
    intro p st h _
    refine ⟨p, ?_, le_refl p⟩
    rw [workerPhase2, dif_neg (by omega : ¬((al + p) % 16 ≠ 0 ∧ (p : Int) < limit))]
  | succ n ih =>
    intro p st h hm
    by_cases hc : (al + p) % 16 ≠ 0 ∧ (p : Int) < limit
    · rw [workerPhase2, dif_pos hc, hm p (le_refl p)]
      simp only [Bool.false_and, Bool.false_eq_true, if_false]
      obtain ⟨p2, h2, hle⟩ := ih (p + 1) st (by omega) fun q hq => hm q (by omega)
      exact ⟨p2, h2, by omega⟩
    · rw [workerPhase2, dif_neg hc]
      exact ⟨p, rfl, le_refl p⟩

theorem workerPhase3_nomiss (data pat : List Nat) (plen : Nat) (limit : Int)
    (maxCollect : Nat) :
    ∀ n p st, limit.toNat ≤ p + n → st.1.length < maxCollect →
      (∀ q, p ≤ q → (byteAt data q == byteAt pat 0) = false) →
      ∃ p2, workerPhase3 data pat plen limit maxCollect p st = (p2, st, false) ∧
        p ≤ p2 := by
  intro n
  induction n with
  | zero =>
    intro p st h _ _
    refine ⟨p, ?_, le_refl p⟩
    rw [workerPhase3, dif_neg (by omega : ¬((p : Int) < limit - 16))]
  | succ n ih =>
    intro p st h hst hm
    by_cases hc : (p : Int) < limit - 16
    · have hfil : (((List.range 16).map (p + ·)).filter
          fun c => byteAt data c == byteAt pat 0) = [] := by
        apply List.filter_eq_nil_iff.mpr
        intro c hc2
        obtain ⟨k, _, hk⟩ := List.mem_map.mp hc2
        rw [← hk, hm (p + k) (by omega)]
        simp
      have hstep : workerPhase3 data pat plen limit maxCollect p st =
          workerPhase3 data pat plen limit maxCollect (p + 16) st := by
        rw [workerPhase3, dif_pos hc, hfil]
        show (if st.1.length ≥ maxCollect then (p + 16, st, true)
          else workerPhase3 data pat plen limit maxCollect (p + 16) st) = _
        rw [if_neg (by omega : ¬ st.1.length ≥ maxCollect)]
      rw [hstep]
      obtain ⟨p2, h2, hle⟩ := ih (p + 16) st (by omega) hst fun q hq => hm q (by omega)
      exact ⟨p2, h2, by omega⟩
    · rw [workerPhase3, dif_neg hc]
      exact ⟨p, rfl, le_refl p⟩

theorem workerPhase4_nomiss (data pat : List Nat) (plen : Nat) (limit : Int)
    (maxCollect : Nat) :
    ∀ n p st, limit.toNat ≤ p + n →
      (∀ q, p ≤ q → (byteAt data q == byteAt pat 0) = false) →
      ∃ p2, workerPhase4 data pat plen limit maxCollect p st = (p2, st, false) ∧
        p ≤ p2 := by
  intro n
  induction n with
  | zero =>
    intro p st h _
    refine ⟨p, ?_, le_refl p⟩
    rw [workerPhase4, dif_neg (by omega : ¬((p : Int) < limit))]
  | succ n ih =>
    intro p st h hm
    by_cases hc : (p : Int) < limit
    · rw [workerPhase4, dif_pos hc, hm p (le_refl p)]
      simp only [Bool.false_and, Bool.false_eq_true, if_false]
      obtain ⟨p2, h2, hle⟩ := ih (p + 1) st (by omega) fun q hq => hm q (by omega)
      exact ⟨p2, h2, by omega⟩
    · rw [workerPhase4, dif_neg hc]
      exact ⟨p, rfl, le_refl p⟩

theorem workerTail34_nomiss (data pat : List Nat) (plen : Nat) (limit : Int)
    (maxCollect p : Nat) (st : List Nat × Nat) (hst : st.1.length < maxCollect)
    (hm : ∀ q, p ≤ q → (byteAt data q == byteAt pat 0) = false) :
    workerTail34 data pat plen limit maxCollect p st = st.1 := by
  obtain ⟨p3, h3, hle3⟩ := workerPhase3_nomiss data pat plen limit maxCollect
    limit.toNat p st (by omega) hst hm
  unfold workerTail34
  rw [h3]
  show (workerPhase4 data pat plen limit maxCollect p3 st).2.1.1 = st.1
  obtain ⟨p4, h4, _⟩ := workerPhase4_nomiss data pat plen limit maxCollect
    limit.toNat p3 st (by omega) fun q hq => hm q (by omega)
  rw [h4]

theorem workerTail234_nomiss (data pat : List Nat) (plen : Nat) (limit : Int)
    (al maxCollect p : Nat) (st : List Nat × Nat) (hst : st.1.length < maxCollect)
    (hm : ∀ q, p ≤ q → (byteAt data q == byteAt pat 0) = false) :
    workerTail234 data pat plen limit al maxCollect p st = st.1 := by
  obtain ⟨p2, h2, hle2⟩ := workerPhase2_nomiss data pat plen limit al maxCollect
    limit.toNat p st (by omega) hm
  unfold workerTail234
  rw [h2]
  show workerTail34 data pat plen limit maxCollect p2 st = st.1
  exact workerTail34_nomiss data pat plen limit maxCollect p2 st hst
    fun q hq => hm q (by omega)

/-- A worker whose whole scan range misses on the first byte collects
nothing. -/
theorem worker_thread_nomiss (data pat : List Nat) (plen al readStart sz tcs
    maxCollect : Nat) (hcap : 1 ≤ maxCollect)
    (hm : ∀ q, readStart ≤ q → (byteAt data q == byteAt pat 0) = false) :
    worker_thread data pat plen al readStart sz tcs maxCollect = [] := by
  obtain ⟨p1, h1, hle1⟩ := workerPhase1_nomiss data pat plen
    ((readStart : Int) + sz - plen + 1) tcs maxCollect tcs readStart ([], 0)
    (by omega) hm
  have hIter : worker_thread data pat plen al readStart sz tcs maxCollect =
      (let r1 := workerPhase1 data pat plen ((readStart : Int) + sz - plen + 1) tcs
        maxCollect readStart ([], 0)
       if r1.2.2 then r1.2.1.1
       else workerTail234 data pat plen ((readStart : Int) + sz - plen + 1) al maxCollect
         r1.1 r1.2.1) := rfl
  rw [hIter, h1]
  show workerTail234 data pat plen ((readStart : Int) + sz - plen + 1) al maxCollect
    p1 ([], 0) = []
  exact workerTail234_nomiss data pat plen ((readStart : Int) + sz - plen + 1) al
    maxCollect p1 ([], 0) (by simpa using hcap) fun q hq => hm q (by omega)

end Fastscan

/-! ### Uniform buffers (closed forms used at the counterexample inputs) -/

theorem byteAt_oob {data : List Nat} {i : Nat} (h : data.length ≤ i) :
    byteAt data i = 0 := by
  unfold byteAt
  exact List.getD_eq_default data 0 h

theorem byteAt_replicate (n a i : Nat) :
    byteAt (List.replicate n a) i = if i < n then a else 0 := by
  unfold byteAt
  by_cases h : i < n
  · rw [if_pos h]
    rw [List.getD_eq_getElem _ _ (by simpa using h)]
    simp
  · rw [if_neg h]
    exact List.getD_eq_default _ 0 (by simpa using h)

theorem verifyBytes_replicate (n m a i : Nat) (ha : a ≠ 0) (hm : 1 ≤ m) :
    verifyBytes (List.replicate n a) (List.replicate m a) m i = decide (i + m ≤ n) := by
  unfold verifyBytes
  by_cases h : i + m ≤ n
  · rw [decide_eq_true h]
    rw [List.all_eq_true]
    intro j hj
    have hj2 : j < m := List.mem_range.mp hj
    rw [byteAt_replicate, byteAt_replicate, if_pos (by omega), if_pos (by omega)]
    simp
  · rw [decide_eq_false h]
    by_cases hin : i < n
    · apply List.all_eq_false.mpr
      refine ⟨n - i, List.mem_range.mpr (by omega), ?_⟩
      rw [byteAt_replicate, byteAt_replicate, if_neg (by omega), if_pos (by omega)]
      simp [Ne.symm ha]
    · apply List.all_eq_false.mpr
      refine ⟨0, List.mem_range.mpr (by omega), ?_⟩
      rw [byteAt_replicate, byteAt_replicate, if_neg (by omega), if_pos (by omega)]
      simp [Ne.symm ha]

theorem matchesIn_replicate (n m a s b : Nat) (ha : a ≠ 0) (hm : 1 ≤ m)
    (hb : b ≤ n + 1 - m) :
    matchesIn (List.replicate n a) (List.replicate m a) m s b = List.range' s (b - s) := by
  unfold matchesIn
  apply List.filter_eq_self.mpr
  intro i hi
  have hmem := List.mem_range'_1.mp hi
  rw [verifyBytes_replicate n m a i ha hm]
  exact decide_eq_true (by omega)

namespace Scanner

/-!
Read instrumentation for the memory-access claim: a control-flow mirror of
`fs_scan_raw` (scanner.c) that also returns the candidate positions at
which full verification is invoked. For `pattern_len ≤ 16` the verifier is
`verify_sse2` (scanner.c:77, 102), whose two `_mm_loadu_si128` loads read
16 bytes starting at the candidate and 16 bytes of the pattern buffer,
regardless of `pattern_len`.
-/

/-- The data indices loaded by one `verify_sse2(data + i, pattern, len)`
call (scanner.c:16): a full unaligned 16-byte load at `i`, for every
`len`. -/
def verify_sse2_reads (i : Nat) : List Nat := List.range' i 16

/-- `scanCands` mirror accumulating verification positions. -/
def scanCandsV (data pat : List Nat) (plen cap lim : Nat) :
    List Nat → List Nat → List Nat → List Nat × List Nat × Bool
  | [], acc, vs => (acc, vs, false)
  | c :: cs, acc, vs =>
    if c < lim then
      if verifyBytes data pat plen c then
        if acc.length < cap then
          scanCandsV data pat plen cap lim cs (acc ++ [c]) (vs ++ [c])
        else (acc, vs ++ [c], true)
      else scanCandsV data pat plen cap lim cs acc (vs ++ [c])
    else scanCandsV data pat plen cap lim cs acc vs

/-- `scanMain` mirror accumulating verification positions. -/
def scanMainV (data pat : List Nat) (plen cap lim : Nat) (s : Nat) (acc vs : List Nat) :
    List Nat × List Nat × Nat × Bool :=
  if h : s + 16 < data.length then
    let step := scanCandsV data pat plen cap lim
      (((List.range 16).map (s + ·)).filter (prefilterBit data pat plen)) acc vs
    if step.2.2 then (step.1, step.2.1, s, true)
    else scanMainV data pat plen cap lim (s + 16) step.1 step.2.1
  else (acc, vs, s, false)
termination_by data.length - s

/-- `scanTail` mirror accumulating verification positions. -/
def scanTailV (data pat : List Nat) (plen cap lim : Nat) (s : Nat) (acc vs : List Nat) :
    List Nat × List Nat :=
  if _h : s < lim then
    if byteAt data s == byteAt pat 0 && (plen == 1 || byteAt data (s + 1) == byteAt pat 1) then
      if verifyBytes data pat plen s then
        if acc.length < cap then scanTailV data pat plen cap lim (s + 1) (acc ++ [s]) (vs ++ [s])
        else (acc, vs ++ [s])
      else scanTailV data pat plen cap lim (s + 1) acc (vs ++ [s])
    else scanTailV data pat plen cap lim (s + 1) acc vs
  else (acc, vs)
termination_by lim - s

/-- The positions at which `fs_scan_raw` invokes full verification. -/
def fs_scan_raw_verify_calls (data pat : List Nat) (plen cap : Nat) : List Nat :=
  if cap = 0 then []
  else if data.length < plen then []
  else
    let lim := data.length - plen + 1
    let m := scanMainV data pat plen cap lim 0 [] []
    if m.2.2.2 then m.2.1
    else (scanTailV data pat plen cap lim m.2.2.1 m.1 m.2.1).2

end Scanner

/-! ### Pattern-prefix congruence (for the `strlen` claim) -/

theorem list_all_congr {l : List Nat} {f g : Nat → Bool} (h : ∀ x ∈ l, f x = g x) :
    l.all f = l.all g := by
  induction l with
  | nil => rfl
  | cons a l ih =>
    simp only [List.all_cons]
    rw [h a (by simp), ih fun x hx => h x (by simp [hx])]

theorem byteAt_takeWhile (pat : List Nat) :
    ∀ j, j < (pat.takeWhile fun b => b != 0).length →
      byteAt (pat.takeWhile fun b => b != 0) j = byteAt pat j := by
  induction pat with
  | nil =>
    intro j hj
    simp at hj
  | cons b bs ih =>
    intro j hj
    by_cases hb : (b != 0) = true
    · simp only [List.takeWhile_cons, hb, if_true] at hj ⊢
      cases j with
      | zero => rfl
      | succ j =>
        show (bs.takeWhile fun b => b != 0).getD j 0 = bs.getD j 0
        simp only [List.length_cons] at hj
        exact ih j (by omega)
    · simp only [List.takeWhile_cons, hb, if_false] at hj
      simp at hj

theorem cstrlen_lt_of_mem_zero :
    ∀ (pat : List Nat), (0 : Nat) ∈ pat → Fastscan.cstrlen pat < pat.length := by
  intro pat
  induction pat with
  | nil =>
    intro h
    simp at h
  | cons b bs ih =>
    intro h
    unfold Fastscan.cstrlen at *
    by_cases hb : (b != 0) = true
    · simp only [List.takeWhile_cons, hb, if_true, List.length_cons]
      have h0 : (0 : Nat) ∈ bs := by
        rcases List.mem_cons.mp h with h | h
        · exfalso
          simp at hb
          omega
        · exact h
      have := ih h0
      omega
    · simp only [List.takeWhile_cons, hb, if_false]
      simp

theorem naiveMatches_congr (data pat1 pat2 : List Nat) (plen : Nat)
    (h : ∀ j, j < plen → byteAt pat1 j = byteAt pat2 j) :
    naiveMatches data pat1 plen = naiveMatches data pat2 plen := by
  unfold naiveMatches
  by_cases hl : data.length < plen
  · rw [if_pos hl, if_pos hl]
  · rw [if_neg hl, if_neg hl]
    apply List.filter_congr
    intro i _
    unfold verifyBytes
    apply list_all_congr
    intro j hj
    rw [h j (List.mem_range.mp hj)]

/-! ## The claims -/

/-- C1 (amended). The original claim — for EVERY data, pattern with
`pattern_len ≥ 1` and `cap ≥ 1`, both `fs_scan_raw` and `fastscan_execute`
produce exactly the first `min(M, cap)` naive offsets — is refuted by
`C1_execute_readstart_underflow` below: on the parallel path, when
`pattern_len > start_off + 1` for some worker, `read_start = start_off -
pattern_len + 1` (fastscan.c:173) underflows in `uint64`, that worker scans
outside the buffer, and its owned matches are not produced. The amended
claim: `fs_scan_raw` satisfies the property unconditionally; so does
`fastscan_execute`'s small-region branch; and its parallel branch satisfies
it whenever the partition is well-formed — at least one worker,
`pattern_len ≤ chunk + 1` so no worker's `read_start` underflows, and a
`uint64`-sized region. The output is in strictly ascending order (the naive
list is ascending by construction, and truncation preserves this). -/
theorem C1_scan_and_execute_first_min_naive (data pat : List Nat) (plen cap : Nat)
    (hp : 1 ≤ plen) (_hcap : 1 ≤ cap) :
    Scanner.fs_scan_raw data pat plen cap =
      (.success, (naiveMatches data pat plen).take cap) ∧
    (∀ (W : Nat) (spawnOk : Nat → Bool), data.length < 256 * 1024 →
      Fastscan.fastscan_execute data pat plen cap W spawnOk =
        (.success, (naiveMatches data pat plen).take cap)) ∧
    (∀ W : Nat, 1 ≤ W → plen ≤ data.length / W + 1 → data.length < 2 ^ 64 →
      Fastscan.fastscan_execute data pat plen cap W (fun _ => true) =
        (.success, (naiveMatches data pat plen).take cap)) := by
  refine ⟨Scanner.fs_scan_raw_eq_naive data pat plen cap hp, ?_, ?_⟩
  · intro W spawnOk hsmall
    unfold Fastscan.fastscan_execute
    rw [if_pos hsmall]
    exact Scanner.fs_scan_raw_eq_naive data pat plen cap hp
  · intro W hW hchunk h64
    unfold Fastscan.fastscan_execute
    by_cases hsmall : data.length < 256 * 1024
    · rw [if_pos hsmall]
      exact Scanner.fs_scan_raw_eq_naive data pat plen cap hp
    · rw [if_neg hsmall]
      exact Fastscan.fastscan_execute_parallel_eq data pat plen cap W hp hW hchunk h64

/-- C1 witness: over `"aaaa"` with pattern `"aa"` and cap 100, the scan
finds the overlapping matches 0, 1, 2. -/
theorem C1_scan_and_execute_first_min_naive_witness :
    Scanner.fs_scan_raw [97, 97, 97, 97] [97, 97] 2 100 = (.success, [0, 1, 2]) := by
  have h := (C1_scan_and_execute_first_min_naive [97, 97, 97, 97] [97, 97] 2 100
    (by norm_num) (by norm_num)).1
  rw [h]
  decide

/-- C1 counterexample: 256 KiB of `'a'`s, a 128 KiB pattern of `'a'`s,
`cap = 131073` and 3 workers. The region is at the parallel threshold, so
`fastscan_execute` takes the parallel path; worker 1's `read_start =
87381 - 131072 + 1` underflows to `2^64 - 43690`, its scan runs outside
the buffer, and the run returns only worker 0's 87381 matches — not the
first `min(M, cap) = 131073` naive matches `[0, 131073)`. -/
theorem C1_execute_readstart_underflow :
    Fastscan.workerReadStart 262144 131072 3 1 = 2 ^ 64 - 43690 ∧
    Fastscan.fastscan_execute (List.replicate 262144 97) (List.replicate 131072 97)
      131072 131073 3 (fun _ => true) = (.success, List.range' 0 87381) ∧
    (naiveMatches (List.replicate 262144 97) (List.replicate 131072 97) 131072).take 131073
      = List.range' 0 131073 ∧
    List.range' 0 87381 ≠ List.range' 0 131073 := by
  have hbody0 : ∀ data pat : List Nat, data.length = 262144 →
      Fastscan.fastscan_worker data pat 131072 131073 3 0 =
        Fastscan.worker_thread data pat 131072 0 0 218452 0 131073 := by
    intro data pat hlen
    simp only [Fastscan.fastscan_worker, Fastscan.workerReadStart, hlen]
    norm_num
  have hbody1 : ∀ data pat : List Nat, data.length = 262144 →
      Fastscan.fastscan_worker data pat 131072 131073 3 1 =
        Fastscan.worker_thread data pat 131072 0 (2 ^ 64 - 43690) 305834 87381 131073 := by
    intro data pat hlen
    simp only [Fastscan.fastscan_worker, Fastscan.workerReadStart, hlen]
    norm_num
  have hbody2 : ∀ data pat : List Nat, data.length = 262144 →
      Fastscan.fastscan_worker data pat 131072 131073 3 2 =
        Fastscan.worker_thread data pat 131072 0 43691 218453 174762 131073 := by
    intro data pat hlen
    simp only [Fastscan.fastscan_worker, Fastscan.workerReadStart, hlen]
    norm_num
  have hlenr : (List.replicate 262144 (97 : Nat)).length = 262144 := by
    rw [List.length_replicate]
  have hw0 : Fastscan.fastscan_worker (List.replicate 262144 97) (List.replicate 131072 97)
      131072 131073 3 0 = List.range' 0 87381 := by
    rw [hbody0 (List.replicate 262144 97) (List.replicate 131072 97) hlenr,
      Fastscan.worker_thread_eq (List.replicate 262144 97)
      (List.replicate 131072 97) 131072 0 0 218452 0 131073 (by norm_num) (le_refl 0)]
    rw [show (((0 : Nat) : Int) + ((218452 : Nat) : Int) - ((131072 : Nat) : Int)
      + 1).toNat = 87381 from by decide]
    rw [matchesIn_replicate 262144 131072 97 0 87381 (by norm_num) (by norm_num)
      (by norm_num)]
    rw [List.take_of_length_le (by simp [List.length_range'])]
  have hw1 : Fastscan.fastscan_worker (List.replicate 262144 97) (List.replicate 131072 97)
      131072 131073 3 1 = [] := by
    rw [hbody1 (List.replicate 262144 97) (List.replicate 131072 97) hlenr]
    apply Fastscan.worker_thread_nomiss _ _ _ _ _ _ _ _ (by norm_num)
    intro q hq
    rw [byteAt_replicate, if_neg (by omega), byteAt_replicate, if_pos (by norm_num)]
    rfl
  have hw2 : Fastscan.fastscan_worker (List.replicate 262144 97) (List.replicate 131072 97)
      131072 131073 3 2 = [] := by
    rw [hbody2 (List.replicate 262144 97) (List.replicate 131072 97) hlenr,
      Fastscan.worker_thread_eq (List.replicate 262144 97)
      (List.replicate 131072 97) 131072 0 43691 218453 174762 131073 (by norm_num)
      (by norm_num)]
    rw [show (((43691 : Nat) : Int) + ((218453 : Nat) : Int) - ((131072 : Nat) : Int)
      + 1).toNat = 131073 from by decide]
    rw [matchesIn_stop (by norm_num : (131073 : Nat) ≤ 174762)]
    rfl
  refine ⟨by decide, ?_, ?_, ?_⟩
  · have hexec : Fastscan.fastscan_execute (List.replicate 262144 97)
        (List.replicate 131072 97) 131072 131073 3 (fun _ => true) =
        Fastscan.fastscan_execute_parallel (List.replicate 262144 97)
          (List.replicate 131072 97) 131072 131073 3 (fun _ => true) := by
      rw [Fastscan.fastscan_execute, if_neg (by rw [hlenr]; norm_num)]
    rw [hexec]
    calc Fastscan.fastscan_execute_parallel (List.replicate 262144 97)
          (List.replicate 131072 97) 131072 131073 3 (fun _ => true)
        = (.success, (((List.range 3).map fun i =>
            if (fun _ => true) i
            then Fastscan.fastscan_worker (List.replicate 262144 97)
              (List.replicate 131072 97) 131072 131073 3 i
            else []).flatten).take 131073) :=
          congrArg (fun l => ((FsStatus.success : FsStatus), l))
            (Fastscan.take_total_cap _ 131073)
      _ = (.success, List.range' 0 87381) := by
          rw [show List.range 3 = [0, 1, 2] from rfl]
          simp only [List.map_cons, List.map_nil, if_pos]
          rw [hw0, hw1, hw2]
          simp only [List.flatten_cons, List.flatten_nil, List.append_nil]
          rw [List.take_of_length_le (by simp [List.length_range'])]
  · rw [naiveMatches_eq_matchesIn (List.replicate 262144 97) (List.replicate 131072 97)
      131072 (by rw [hlenr]; norm_num)]
    rw [hlenr]
    rw [show (262144 : Nat) - 131072 + 1 = 131073 from by norm_num]
    rw [matchesIn_replicate 262144 131072 97 0 131073 (by norm_num) (by norm_num)
      (by norm_num)]
    rw [List.take_of_length_le (by simp [List.length_range'])]
  · intro h
    have hlen2 := congrArg List.length h
    rw [List.length_range', List.length_range'] at hlen2
    exact absurd hlen2 (by norm_num)

/-- C2 (amended). The original claim — the parallel execution path equals
the single-threaded path for EVERY file content, pattern and cap — is
refuted by `C2_parallel_readstart_underflow` below: when `pattern_len >
start_off + 1` for some worker, its `read_start` underflows in `uint64`
and the parallel path loses that worker's owned matches. The amended
claim: the parallel path (partitioning into `W` workers with
overlap-extended scan ranges, per-worker discarding below the owned start,
merge in worker order truncated at the cap) produces byte for byte the
same match list as the single-threaded `fs_scan_raw` whenever the
partition is well-formed (`W ≥ 1`, `pattern_len ≤ chunk + 1` so no
`read_start` underflows, region below `2^64`). -/
theorem C2_parallel_path_eq_sequential (data pat : List Nat) (plen cap W : Nat)
    (hp : 1 ≤ plen) (hW : 1 ≤ W) (hchunk : plen ≤ data.length / W + 1)
    (h64 : data.length < 2 ^ 64) :
    Fastscan.fastscan_execute_parallel data pat plen cap W (fun _ => true) =
      Scanner.fs_scan_raw data pat plen cap :=
  Fastscan.parallel_eq_sequential data pat plen cap W hp hW hchunk h64

/-- C2 witness: two workers over `"aaaa"`, pattern `"a"`, cap 3 — the
boundary partition agrees with the sequential scan. -/
theorem C2_parallel_path_eq_sequential_witness :
    Fastscan.fastscan_execute_parallel [97, 97, 97, 97] [97] 1 3 2 (fun _ => true) =
      Scanner.fs_scan_raw [97, 97, 97, 97] [97] 1 3 :=
  C2_parallel_path_eq_sequential [97, 97, 97, 97] [97] 1 3 2 (by norm_num) (by norm_num)
    (by norm_num) (by norm_num)

/-- C2 counterexample: `"aaaaaa"`, pattern `"aaaa"`, cap 10, 3 workers
(chunk = 2). Worker 1's `read_start = 2 - 4 + 1` underflows to `2^64 - 1`,
its scan runs outside the buffer and its owned match at offset 2 is lost:
the parallel path returns `[0, 1]` while the single-threaded scan returns
`[0, 1, 2]`. -/
theorem C2_parallel_readstart_underflow :
    Fastscan.workerReadStart 6 4 3 1 = 2 ^ 64 - 1 ∧
    Fastscan.fastscan_execute_parallel [97, 97, 97, 97, 97, 97] [97, 97, 97, 97] 4 10 3
      (fun _ => true) = (.success, [0, 1]) ∧
    Scanner.fs_scan_raw [97, 97, 97, 97, 97, 97] [97, 97, 97, 97] 4 10 =
      (.success, [0, 1, 2]) ∧
    ([0, 1] : List Nat) ≠ [0, 1, 2] := by
  have hw0 : Fastscan.fastscan_worker [97, 97, 97, 97, 97, 97] [97, 97, 97, 97] 4 10 3 0 =
      [0, 1] := by
    show Fastscan.worker_thread [97, 97, 97, 97, 97, 97] [97, 97, 97, 97] 4 0 0 5 0 10 =
      [0, 1]
    rw [Fastscan.worker_thread_eq [97, 97, 97, 97, 97, 97] [97, 97, 97, 97] 4 0 0 5 0 10
      (by norm_num) (le_refl 0)]
    decide
  have hw1 : Fastscan.fastscan_worker [97, 97, 97, 97, 97, 97] [97, 97, 97, 97] 4 10 3 1 =
      [] := by
    show Fastscan.worker_thread [97, 97, 97, 97, 97, 97] [97, 97, 97, 97] 4 0
      (2 ^ 64 - 1) 7 2 10 = []
    apply Fastscan.worker_thread_nomiss _ _ _ _ _ _ _ _ (by norm_num)
    intro q hq
    rw [byteAt_oob (show ([97, 97, 97, 97, 97, 97] : List Nat).length ≤ q by
      simp only [List.length_cons, List.length_nil]
      omega)]
    rfl
  have hw2 : Fastscan.fastscan_worker [97, 97, 97, 97, 97, 97] [97, 97, 97, 97] 4 10 3 2 =
      [] := by
    show Fastscan.worker_thread [97, 97, 97, 97, 97, 97] [97, 97, 97, 97] 4 0 1 5 4 10 = []
    rw [Fastscan.worker_thread_eq [97, 97, 97, 97, 97, 97] [97, 97, 97, 97] 4 0 1 5 4 10
      (by norm_num) (by norm_num)]
    decide
  refine ⟨by decide, ?_, ?_, by decide⟩
  · calc Fastscan.fastscan_execute_parallel [97, 97, 97, 97, 97, 97] [97, 97, 97, 97] 4 10 3
          (fun _ => true)
        = (.success, (((List.range 3).map fun i =>
            if (fun _ => true) i
            then Fastscan.fastscan_worker [97, 97, 97, 97, 97, 97] [97, 97, 97, 97] 4 10 3 i
            else []).flatten).take 10) :=
          congrArg (fun l => ((FsStatus.success : FsStatus), l))
            (Fastscan.take_total_cap _ 10)
      _ = (.success, [0, 1]) := by
          rw [show List.range 3 = [0, 1, 2] from rfl]
          simp only [List.map_cons, List.map_nil, if_pos]
          rw [hw0, hw1, hw2]
          decide
  · rw [Scanner.fs_scan_raw_eq_naive [97, 97, 97, 97, 97, 97] [97, 97, 97, 97] 4 10
      (by norm_num)]
    decide

/-- C3 (code bug). The part_002 `fs_scan_raw` CAN emit a match at offset
`data_len - pattern_len + 1`: on data `"xa"`, pattern `"ab"`, when the byte
just past the buffer holds `'b'`, its memchr path admits `found == limit`
(the bound check is `found > limit`), reads `data[data_len]` and emits
offset 1, outside the valid range `[0, data_len - pattern_len] = [0, 0]`. -/
theorem C3_part002_emits_out_of_range_offset :
    Scanner2.fs_scan_raw [120, 97] [97, 98] 2 2 0 (fun _ => 98) = (.success, [1]) ∧
    ([120, 97] : List Nat).length - ([97, 98] : List Nat).length < 1 := by
  constructor
  · simp [Scanner2.fs_scan_raw, Scanner2.memchrLoop, Scanner2.memchrIdx, Scanner2.memcmpB,
      readB, byteAt, List.range', List.find?]
    decide
  · decide

/-- C4 (code bug). On data `"aa"`, pattern `"aa"`, cap 1, the scanner.c
`fs_scan_raw` invokes `verify_sse2` at offset 0 (its only verification
call), and that call loads the 16 bytes `data[0..16)` — reading index 2 and
beyond, at and past `data + data_len = data + 2`. -/
theorem C4_verify_sse2_reads_past_end :
    Scanner.fs_scan_raw_verify_calls [97, 97] [97, 97] 2 1 = [0] ∧
    (2 : Nat) ∈ Scanner.verify_sse2_reads 0 ∧
    ([97, 97] : List Nat).length ≤ 2 := by
  refine ⟨?_, ?_, by decide⟩
  · simp [Scanner.fs_scan_raw_verify_calls, Scanner.scanMainV, Scanner.scanTailV,
      Scanner.scanCandsV, verifyBytes, byteAt, List.range]
  · simp [Scanner.verify_sse2_reads, List.range']

/-- C5 (code bug). The two raw-scanner implementations are not
observationally equal: on data `"za"`, pattern `"ab"`, cap 2, with the byte
just past the buffer holding `'b'`, scanner.c emits no match while part_002
emits offset 1. -/
theorem C5_raw_scanner_implementations_differ :
    Scanner.fs_scan_raw [122, 97] [97, 98] 2 2 = (.success, []) ∧
    Scanner2.fs_scan_raw [122, 97] [97, 98] 2 2 0 (fun _ => 98) = (.success, [1]) := by
  constructor
  · simp [Scanner.fs_scan_raw, Scanner.scanMain, Scanner.scanTail, verifyBytes, byteAt]
  · simp [Scanner2.fs_scan_raw, Scanner2.memchrLoop, Scanner2.memchrIdx, Scanner2.memcmpB,
      readB, byteAt, List.range', List.find?]
    decide

/-- C6 counterexample: `fastscan_init` on the empty pattern returns
`Success`, not `InvalidArg`, and stores `pattern_len = 0`. -/
theorem C6_init_empty_pattern_success :
    (Fastscan.fastscan_init [] 5).1 = .success ∧
    (Fastscan.fastscan_init [] 5).1 ≠ .invalidArg ∧
    (Fastscan.fastscan_init [] 5).2.patternLen = 0 := by
  refine ⟨rfl, by decide, rfl⟩

/-- C6 (amended). `fastscan_init` validates only that its pointer arguments
are non-NULL: every call with non-NULL arguments returns `Success`, storing
`strlen(pattern)` (possibly 0) and the cap (possibly 0) unvalidated, with
`is_initialized` set; the empty-pattern `InvalidArg` rejection exists only
in `fs_scan_run`, which the `fastscan_execute` path never calls. -/
theorem C6_init_stores_unvalidated (pat : List Nat) (cap : Nat) :
    (Fastscan.fastscan_init pat cap).1 = .success ∧
    (Fastscan.fastscan_init pat cap).2.patternLen = Fastscan.cstrlen pat ∧
    (Fastscan.fastscan_init pat cap).2.maxMatches = cap ∧
    (Fastscan.fastscan_init pat cap).2.isInitialized = true ∧
    (∀ ctx : Fastscan.FastscanCtx, ctx.patternLen = 0 → ctx.region.data ≠ none →
      (Fastscan.fs_scan_run ctx).1 = .invalidArg) := by
  refine ⟨rfl, rfl, rfl, rfl, ?_⟩
  intro ctx h0 hd
  cases hdata : ctx.region.data with
  | none => exact absurd hdata hd
  | some d => simp [Fastscan.fs_scan_run, hdata, h0]

/-- C7 (code bug). `fastscan_execute` ignores `pthread_create`'s result: if
worker 1's spawn fails over `"aaaa"` with pattern `"a"` (two workers), the
merge silently returns `Success` with only worker 0's matches `[0, 1]`;
with both spawns succeeding it returns `[0, 1, 2, 3]`; and the parallel
path never returns `OpenFailed` (its status component is always `Success`
when allocations succeed). -/
theorem C7_spawn_failure_yields_partial_success :
    Fastscan.fastscan_execute_parallel [97, 97, 97, 97] [97] 1 10 2
      (fun i => decide (i = 0)) = (.success, [0, 1]) ∧
    Fastscan.fastscan_execute_parallel [97, 97, 97, 97] [97] 1 10 2
      (fun _ => true) = (.success, [0, 1, 2, 3]) ∧
    (∀ (data pat : List Nat) (plen cap W : Nat) (spawnOk : Nat → Bool),
      (Fastscan.fastscan_execute_parallel data pat plen cap W spawnOk).1 = .success) := by
  have hW0 : Fastscan.fastscan_worker [97, 97, 97, 97] [97] 1 10 2 0 = [0, 1] := by
    rw [Fastscan.fastscan_worker_eq [97, 97, 97, 97] [97] 1 10 2 0 (by norm_num)
      (by norm_num) (by norm_num) (by norm_num) (by norm_num)]
    decide
  have hW1 : Fastscan.fastscan_worker [97, 97, 97, 97] [97] 1 10 2 1 = [2, 3] := by
    rw [Fastscan.fastscan_worker_eq [97, 97, 97, 97] [97] 1 10 2 1 (by norm_num)
      (by norm_num) (by norm_num) (by norm_num) (by norm_num)]
    decide
  refine ⟨?_, ?_, fun _ _ _ _ _ _ => rfl⟩
  · have hR : ((List.range 2).map fun i =>
        if (fun i => decide (i = 0)) i
        then Fastscan.fastscan_worker [97, 97, 97, 97] [97] 1 10 2 i else []) =
        [[0, 1], []] := by
      rw [show List.range 2 = [0, 1] from rfl]
      simp only [List.map_cons, List.map_nil]
      rw [hW0]
      norm_num
    calc Fastscan.fastscan_execute_parallel [97, 97, 97, 97] [97] 1 10 2
          (fun i => decide (i = 0))
        = (.success, (((List.range 2).map fun i =>
            if (fun i => decide (i = 0)) i
            then Fastscan.fastscan_worker [97, 97, 97, 97] [97] 1 10 2 i
            else []).flatten).take 10) :=
          congrArg (fun l => ((FsStatus.success : FsStatus), l))
            (Fastscan.take_total_cap _ 10)
      _ = (.success, [0, 1]) := by
          rw [hR]
          decide
  · have hR : ((List.range 2).map fun i =>
        if (fun _ => true) i
        then Fastscan.fastscan_worker [97, 97, 97, 97] [97] 1 10 2 i else []) =
        [[0, 1], [2, 3]] := by
      rw [show List.range 2 = [0, 1] from rfl]
      simp only [List.map_cons, List.map_nil, if_pos]
      rw [hW0, hW1]
    calc Fastscan.fastscan_execute_parallel [97, 97, 97, 97] [97] 1 10 2 (fun _ => true)
        = (.success, (((List.range 2).map fun i =>
            if (fun _ => true) i
            then Fastscan.fastscan_worker [97, 97, 97, 97] [97] 1 10 2 i
            else []).flatten).take 10) :=
          congrArg (fun l => ((FsStatus.success : FsStatus), l))
            (Fastscan.take_total_cap _ 10)
      _ = (.success, [0, 1, 2, 3]) := by
          rw [hR]
          decide

/-- C8. `fastscan_destroy` is idempotent: after one destroy, a second
destroy unmaps nothing, closes nothing, frees nothing, and leaves the
context state exactly as the first call left it. -/
theorem C8_destroy_idempotent (ctx : Fastscan.FastscanCtx) :
    Fastscan.fastscan_destroy (Fastscan.fastscan_destroy ctx).1 =
      ((Fastscan.fastscan_destroy ctx).1, false, false, false) := by
  unfold Fastscan.fastscan_destroy Fastscan.fs_mmap_close
  by_cases h1 : (ctx.region.data.isSome && decide (ctx.region.size > 0)) = true <;>
    by_cases h2 : ctx.region.fd ≠ -1 <;>
      simp [h1, h2]

/-- C9. With `max_matches = 0`, both raw-scanner implementations return
immediately with `Success`, a match count of 0 and no writes. -/
theorem C9_cap_zero_immediate_success (data pat : List Nat) (plen al : Nat)
    (ext : Nat → Nat) :
    Scanner.fs_scan_raw data pat plen 0 = (.success, []) ∧
    Scanner2.fs_scan_raw data pat plen 0 al ext = (.success, []) :=
  ⟨rfl, rfl⟩

/-- C10. `fastscan_init` derives `pattern_len` from `strlen`, so the stored
length counts only the bytes before the first NUL; a pattern containing a
zero byte is stored with `pattern_len < |pattern|`, and every subsequent
scan through the stored (pattern, pattern_len) behaves exactly as a scan
for the truncated prefix. -/
theorem C10_strlen_truncated_pattern (pat : List Nat) (cap : Nat) (data : List Nat)
    (hs : 1 ≤ Fastscan.cstrlen pat) :
    (Fastscan.fastscan_init pat cap).2.patternLen =
      (pat.takeWhile fun b => b != 0).length ∧
    ((0 : Nat) ∈ pat →
      (Fastscan.fastscan_init pat cap).2.patternLen < pat.length) ∧
    Scanner.fs_scan_raw data (Fastscan.fastscan_init pat cap).2.pattern
        (Fastscan.fastscan_init pat cap).2.patternLen
        (Fastscan.fastscan_init pat cap).2.maxMatches =
      Scanner.fs_scan_raw data (pat.takeWhile fun b => b != 0)
        (pat.takeWhile fun b => b != 0).length cap := by
  refine ⟨rfl, fun h0 => cstrlen_lt_of_mem_zero pat h0, ?_⟩
  show Scanner.fs_scan_raw data pat (Fastscan.cstrlen pat) cap = _
  rw [Scanner.fs_scan_raw_eq_naive data pat (Fastscan.cstrlen pat) cap hs,
    Scanner.fs_scan_raw_eq_naive data (pat.takeWhile fun b => b != 0)
      (pat.takeWhile fun b => b != 0).length cap hs]
  rw [naiveMatches_congr data pat (pat.takeWhile fun b => b != 0) (Fastscan.cstrlen pat)
    fun j hj => (byteAt_takeWhile pat j hj).symm]
  rfl

/-- C10 witness: initializing with bytes `"a\0b"` stores `pattern_len = 1`,
and the stored context scans like the one-byte pattern `"a"`. -/
theorem C10_strlen_truncated_pattern_witness :
    (Fastscan.fastscan_init [97, 0, 98] 5).2.patternLen = 1 ∧
    Scanner.fs_scan_raw [97, 97] (Fastscan.fastscan_init [97, 0, 98] 5).2.pattern
        (Fastscan.fastscan_init [97, 0, 98] 5).2.patternLen
        (Fastscan.fastscan_init [97, 0, 98] 5).2.maxMatches =
      Scanner.fs_scan_raw [97, 97] [97] 1 5 := by
  have h := C10_strlen_truncated_pattern [97, 0, 98] 5 [97, 97] (by decide)
  exact ⟨h.1, h.2.2⟩
